import Mathlib

/-!
# Verification of the spec-number conflict-resolution tool

This development shallowly embeds `fix_spec_conflicts.py`: a batch tool that
scans a repository's spec registry for filename records `PREFIX-TOKEN-TAIL.md`,
groups colliding tokens within a prefix family, renumbers the "newest" record
of each colliding group to a freshly allocated numeric token, and rewrites
textual references across the repository, with a dry-run (preview) mode.

Strings are modelled as `List Char`; the filesystem as a list of file entries
whose content is `Option (List Char)` (`none` models content that cannot be
decoded as UTF-8); fallible I/O as `Except Unit`.
-/

set_option maxRecDepth 10000

abbrev Str := List Char

/-! ## Decimal digits: `str.isdigit`, `int(...)`, `str(...)`, `zfill` -/

/-- Numeric value of a digit string, like Python `int` on an all-digit string. -/
def digitsToNat (l : Str) : Nat :=
  l.foldl (fun a c => a * 10 + (c.toNat - '0'.toNat)) 0

/-- The decimal digit character for `n < 10`. -/
def digitChar (n : Nat) : Char :=
  if n = 0 then '0' else if n = 1 then '1' else if n = 2 then '2'
  else if n = 3 then '3' else if n = 4 then '4' else if n = 5 then '5'
  else if n = 6 then '6' else if n = 7 then '7' else if n = 8 then '8'
  else '9'

/-- Fuelled decimal rendering (structural recursion so that it reduces). -/
def natToDigitsAux : Nat → Nat → Str
  | 0, _ => []
  | fuel + 1, n =>
    if n < 10 then [digitChar n]
    else natToDigitsAux fuel (n / 10) ++ [digitChar (n % 10)]

/-- Decimal rendering of a natural number, like Python `str` on an int. -/
def natToDigits (n : Nat) : Str := natToDigitsAux (n + 1) n

/-- Python `str.zfill` on a digit string: left-pad with zeros to width `w`. -/
def zfill (s : Str) (w : Nat) : Str := List.replicate (w - s.length) '0' ++ s

/-- Python `str.isdigit` for the ASCII tokens produced by the scanner. -/
def isNumTok (t : Str) : Bool := !t.isEmpty && t.all Char.isDigit

/-! ## Python `str.replace` (all non-overlapping occurrences, left to right) -/

/-- Fuelled core of `str.replace`; `fuel ≥ s.length` suffices for nonempty
`old` because each step strictly shortens the remaining input. -/
def pyReplaceAux (old new : Str) : Nat → Str → Str
  | 0, s => s
  | _ + 1, [] => []
  | fuel + 1, c :: rest =>
    if old ≠ [] ∧ old.isPrefixOf (c :: rest) then
      new ++ pyReplaceAux old new fuel (List.drop old.length (c :: rest))
    else
      c :: pyReplaceAux old new fuel rest

/-- Python `content.replace(old, new)` for nonempty `old`. -/
def pyReplace (s old new : Str) : Str := pyReplaceAux old new s.length s

/-- Whether `old` occurs as a contiguous substring of `s`. -/
def hasOccur (old : Str) : Str → Bool
  | [] => old.isPrefixOf []
  | c :: rest => old.isPrefixOf (c :: rest) || hasOccur old rest

/-! ## Data model: `SpecFile` records, paths, file entries -/

/-- A path split into the components of its parent directory and a basename. -/
structure Pth where
  dirs : List Str
  name : Str
deriving DecidableEq, Inhabited

/-- One scanned spec record (mirrors the Python `SpecFile` dataclass; `pfx` is
the `prefix` field, `mtime` the scan-time modification stamp). -/
structure SpecFile where
  path : Pth
  pfx : Str
  token : Str
  tail : Str
  mtime : Nat
deriving DecidableEq, Inhabited

/-- `SpecFile.spec_id`: `prefix + "-" + token`. -/
def mkSpecId (pfx tok : Str) : Str := pfx ++ '-' :: tok

/-- The new filename `f"{prefix}-{new_token}-{tail}.md"`. -/
def mkFileName (pfx tok tail : Str) : Str :=
  pfx ++ '-' :: (tok ++ '-' :: (tail ++ ('.' :: 'm' :: 'd' :: [])))

/-- A file on disk: location, basename, and decoded content (`none` when the
file cannot be decoded as UTF-8 text). -/
structure FileEntry where
  dirs : List Str
  name : Str
  content : Option Str
deriving DecidableEq, Inhabited

abbrev FS := List FileEntry

/-! ## Dates: the `dated_key` property -/

def isLeapYear (y : Nat) : Bool :=
  (y % 4 == 0 && y % 100 != 0) || y % 400 == 0

def daysInMonth (y m : Nat) : Nat :=
  if m = 2 then (if isLeapYear y then 29 else 28)
  else if m = 4 ∨ m = 6 ∨ m = 9 ∨ m = 11 then 30
  else 31

/-- Validity of `datetime.date(y, m, d)`. -/
def validDate (y m d : Nat) : Bool :=
  decide (1 ≤ y) && decide (y ≤ 9999) && decide (1 ≤ m) && decide (m ≤ 12) &&
  decide (1 ≤ d) && decide (d ≤ daysInMonth y m)

/-- `SpecFile.dated_key`: parse a leading `YYYY-MM-DD-` fragment of the tail
and validate it as a calendar date. -/
def datedKey (tail : Str) : Option (Nat × Nat × Nat) :=
  match tail with
  | y1 :: y2 :: y3 :: y4 :: '-' :: m1 :: m2 :: '-' :: d1 :: d2 :: '-' :: _ =>
    if y1.isDigit && y2.isDigit && y3.isDigit && y4.isDigit &&
       m1.isDigit && m2.isDigit && d1.isDigit && d2.isDigit then
      let y := digitsToNat [y1, y2, y3, y4]
      let m := digitsToNat [m1, m2]
      let d := digitsToNat [d1, d2]
      if validDate y m d then some (y, m, d) else none
    else none
  | _ => none

/-! ## Tie-breaker: `max(dupes, key=...)` -/

/-- `date.min` is `0001-01-01`. -/
def dateOrMin (o : Option (Nat × Nat × Nat)) : Nat × Nat × Nat := o.getD (1, 1, 1)

/-- Strict lexicographic comparison of date triples. -/
def tripleLt (a b : Nat × Nat × Nat) : Bool :=
  if a.1 ≠ b.1 then decide (a.1 < b.1)
  else if a.2.1 ≠ b.2.1 then decide (a.2.1 < b.2.1)
  else decide (a.2.2 < b.2.2)

/-- The sort key `(dated_key is not None, dated_key or date.min, mtime)`. -/
def tieKey (s : SpecFile) : Bool × (Nat × Nat × Nat) × Nat :=
  ((datedKey s.tail).isSome, dateOrMin (datedKey s.tail), s.mtime)

/-- Strict lexicographic comparison of tie keys (`False < True` on booleans,
then date, then mtime), as Python compares the key tuples. -/
def keyLt (a b : Bool × (Nat × Nat × Nat) × Nat) : Bool :=
  if a.1 ≠ b.1 then a.1 = false
  else if a.2.1 ≠ b.2.1 then tripleLt a.2.1 b.2.1
  else decide (a.2.2 < b.2.2)

/-- Python `max` over the indices of a group, reading the current record list:
returns the first index achieving the maximal tie key. -/
def pyMaxIdx (specs : List SpecFile) : List Nat → Nat
  | [] => 0
  | i :: is =>
    is.foldl
      (fun acc j =>
        if keyLt (tieKey (specs.getD acc default)) (tieKey (specs.getD j default))
        then j else acc) i

/-! ## Token allocator: `next_numeric_token` and the once-per-family width -/

/-- `max_number`: maximum value over purely numeric tokens, 0 if none. -/
def maxNumVal (recs : List SpecFile) : Nat :=
  recs.foldl (fun m s => if isNumTok s.token then Nat.max m (digitsToNat s.token) else m) 0

/-- `next_numeric_token(specs, min_width)`. -/
def nextNumericToken (recs : List SpecFile) (minWidth : Nat) : Str :=
  let nextNumber := maxNumVal recs + 1
  let s := natToDigits nextNumber
  let width := Nat.max minWidth s.length
  zfill s width

/-- The per-family minimum width:
`max((len(s.token) for s in scoped if s.token.isdigit()), default=3)`. -/
def widthOf (scopedL : List SpecFile) : Nat :=
  match (scopedL.filter (fun s => isNumTok s.token)).map (fun s => s.token.length) with
  | [] => 3
  | x :: xs => xs.foldl Nat.max x

/-! ## Reference rewriter: `replace_in_text_files`, `replace_in_file`, rename -/

def skipDirs : List Str :=
  [".git".toList, "node_modules".toList, ".next".toList, "dist".toList,
   "build".toList, ".turbo".toList, "coverage".toList]

def textExtensions : List Str :=
  [".md".toList, ".mdx".toList, ".txt".toList]

/-- A file is reached by the `os.walk` with `SKIP_DIRS` pruning exactly when no
component of its directory path is a skipped directory name. -/
def visitedEntry (e : FileEntry) : Bool :=
  e.dirs.all (fun d => !skipDirs.contains d)

/-- `Path.suffix`: the part of the basename from the last dot on, provided the
dot is not the leading character. -/
def suffixOf (name : Str) : Str :=
  let revTail := name.reverse.takeWhile (fun c => c ≠ '.')
  if revTail.length + 1 ≤ name.length ∧ revTail.length + 1 ≠ name.length then
    '.' :: revTail.reverse
  else []

/-- `path.suffix.lower() in TEXT_EXTENSIONS`. -/
def isTextEntry (e : FileEntry) : Bool :=
  textExtensions.contains ((suffixOf e.name).map Char.toLower)

/-- One file's treatment inside `replace_in_text_files`: whether it counts as
changed, and the (possibly) updated entry. -/
def ritfEntry (oldB newB : Str) (dryRun : Bool) (e : FileEntry) : Bool × FileEntry :=
  if visitedEntry e && isTextEntry e then
    match e.content with
    | none => (false, e)
    | some c =>
      if pyReplace c oldB newB = c then (false, e)
      else (true, if dryRun then e
                  else { e with content := some (pyReplace c oldB newB) })
  else (false, e)

/-- `replace_in_text_files`: walk the repository, replace the old basename by
the new one in every decodable text file, count changed files; writes are
suppressed when `dryRun`. -/
def replaceInTextFiles (fs : FS) (oldB newB : Str) (dryRun : Bool) : Nat × FS :=
  match fs with
  | [] => (0, [])
  | e :: rest =>
    let p := ritfEntry oldB newB dryRun e
    let q := replaceInTextFiles rest oldB newB dryRun
    ((if p.1 then 1 else 0) + q.1, p.2 :: q.2)

def sameKey (p : Pth) (e : FileEntry) : Bool :=
  decide (e.dirs = p.dirs ∧ e.name = p.name)

def findFile (fs : FS) (p : Pth) : Option FileEntry := fs.find? (sameKey p)

def updateFirst (fs : FS) (p : Pth) (f : FileEntry → FileEntry) : FS :=
  match fs with
  | [] => []
  | e :: rest => if sameKey p e then f e :: rest else e :: updateFirst rest p f

/-- `replace_in_file`: read the file at `p` (erroring when it is missing or
cannot be decoded), replace `old` by `new`, report whether anything changed,
and write back unless `dryRun`. -/
def replaceInFile (fs : FS) (p : Pth) (old new : Str) (dryRun : Bool) :
    Except Unit (Bool × FS) :=
  match findFile fs p with
  | none => .error ()
  | some e =>
    match e.content with
    | none => .error ()
    | some c =>
      if pyReplace c old new = c then .ok (false, fs)
      else .ok (true,
        if dryRun then fs
        else updateFirst fs p (fun e0 => { e0 with content := some (pyReplace c old new) }))

/-- `newest.path.rename(new_path)`: same directory, new basename. -/
def renameFile (fs : FS) (p : Pth) (newName : Str) : FS :=
  updateFirst fs p (fun e => { e with name := newName })

/-! ## Conflict grouper -/

/-- The indices (into the full record list) of the records of one family, in
scan order: `[s for s in specs if s.prefix == prefix]`. -/
def scopedIdxOf (specs : List SpecFile) (pfx : Str) : List Nat :=
  (List.range specs.length).filter (fun i => (specs.getD i default).pfx = pfx)

/-- The family's current records, read through the shared list. -/
def scopedRecs (specs : List SpecFile) (idxs : List Nat) : List SpecFile :=
  idxs.map (fun i => specs.getD i default)

/-- `groups.setdefault(spec.token, []).append(spec)`: append index `i` to the
group keyed by `t`, keeping dict insertion order. -/
def addToGroups (gs : List (Str × List Nat)) (t : Str) (i : Nat) :
    List (Str × List Nat) :=
  match gs with
  | [] => [(t, [i])]
  | (k, is) :: rest =>
    if k = t then (k, is ++ [i]) :: rest else (k, is) :: addToGroups rest t i

def buildGroups (specs : List SpecFile) (idxs : List Nat) : List (Str × List Nat) :=
  idxs.foldl (fun gs i => addToGroups gs ((specs.getD i default).token) i) []

/-- Python string `<=` (lexicographic by code point). -/
def lexLe : Str → Str → Bool
  | [], _ => true
  | _ :: _, [] => false
  | a :: as, b :: bs => if a = b then lexLe as bs else decide (a < b)

def groupLe (g h : Str × List Nat) : Bool := lexLe g.1 h.1

def insertSorted (x : Str × List Nat) : List (Str × List Nat) → List (Str × List Nat)
  | [] => [x]
  | y :: ys => if groupLe x y then x :: y :: ys else y :: insertSorted x ys

/-- `sorted(groups.items())`: ascending token order (keys are distinct). -/
def sortGroups (gs : List (Str × List Nat)) : List (Str × List Nat) :=
  gs.foldr insertSorted []

/-! ## The resolution loop -/

/-- The observable effect of one resolved conflict on the in-memory registry:
its group token, the index of the renumbered record, and the freshly allocated
token and filename. -/
structure TraceEnt where
  groupTok : Str
  idx : Nat
  newTok : Str
  newName : Str
deriving DecidableEq, Inhabited

/-- A printed line, modelled structurally (the rendered text is a function of
the constructor's arguments). -/
inductive OutLine where
  | conflict (pfx tok oldBase newBase : Str)
  | refCount (n : Nat)
  | specIdLine (oldId newId : Str)
  | scanning (root : List Str)
  | noSpecsIn (root : List Str)
  | noRoots
  | summaryNone
  | summaryResolved (n : Nat) (dry : Bool)
deriving DecidableEq, Inhabited

/-- The record-only part of the loop state. -/
structure RecState where
  specs : List SpecFile
  count : Nat
  trace : List TraceEnt
deriving DecidableEq, Inhabited

/-- The record-level effect of one iteration of the conflict loop: skip small
groups; otherwise pick the newest, allocate a fresh token from the current
shared record list, and mutate that record's token and path. -/
def recordStep (idxs : List Nat) (width : Nat) (st : RecState)
    (g : Str × List Nat) : RecState :=
  if g.2.length < 2 then st
  else
    let nIdx := pyMaxIdx st.specs g.2
    let newTok := nextNumericToken (scopedRecs st.specs idxs) width
    let newest := st.specs.getD nIdx default
    let newName := mkFileName newest.pfx newTok newest.tail
    let newPath : Pth := { dirs := newest.path.dirs, name := newName }
    { specs := st.specs.set nIdx { newest with token := newTok, path := newPath }
      count := st.count + 1
      trace := st.trace ++ [{ groupTok := g.1, idx := nIdx, newTok := newTok,
                              newName := newName }] }

/-- The record-level projection of `resolve_conflicts_for_prefix`: identical in
preview and apply mode (the loop mutates the shared list unconditionally). -/
def resolveRecordsOnly (specs : List SpecFile) (pfx : Str) : RecState :=
  let idxs := scopedIdxOf specs pfx
  let width := widthOf (scopedRecs specs idxs)
  (sortGroups (buildGroups specs idxs)).foldl (recordStep idxs width)
    { specs := specs, count := 0, trace := [] }

/-- The full loop state: printed lines, filesystem, shared record list,
conflict count, and the effect trace. -/
structure RunState where
  lines : List OutLine
  fs : FS
  specs : List SpecFile
  count : Nat
  trace : List TraceEnt
deriving DecidableEq, Inhabited

/-- The body of the `for token, dupes in sorted(groups.items())` loop. -/
def resolveGroupStep (pfx : Str) (idxs : List Nat) (width : Nat) (dryRun : Bool)
    (st : RunState) (g : Str × List Nat) : Except Unit RunState :=
  if g.2.length < 2 then .ok st
  else
    let nIdx := pyMaxIdx st.specs g.2
    let newTok := nextNumericToken (scopedRecs st.specs idxs) width
    let newest := st.specs.getD nIdx default
    let newName := mkFileName newest.pfx newTok newest.tail
    let newPath : Pth := { dirs := newest.path.dirs, name := newName }
    let line1 := OutLine.conflict pfx g.1 newest.path.name newName
    let p := replaceInTextFiles st.fs newest.path.name newName dryRun
    let line2 := OutLine.refCount p.1
    match replaceInFile p.2 newest.path (mkSpecId newest.pfx newest.token)
        (mkSpecId newest.pfx newTok) dryRun with
    | .error e => .error e
    | .ok q =>
      let idLines := if q.1 then
          [OutLine.specIdLine (mkSpecId newest.pfx newest.token)
            (mkSpecId newest.pfx newTok)]
        else []
      let fs3 := if dryRun then q.2 else renameFile q.2 newest.path newName
      .ok { lines := st.lines ++ [line1, line2] ++ idLines
            fs := fs3
            specs := st.specs.set nIdx { newest with token := newTok, path := newPath }
            count := st.count + 1
            trace := st.trace ++ [{ groupTok := g.1, idx := nIdx, newTok := newTok,
                                    newName := newName }] }

def resolveGroups (pfx : Str) (idxs : List Nat) (width : Nat) (dryRun : Bool) :
    List (Str × List Nat) → RunState → Except Unit RunState
  | [], st => .ok st
  | g :: gs, st =>
    match resolveGroupStep pfx idxs width dryRun st g with
    | .error e => .error e
    | .ok st1 => resolveGroups pfx idxs width dryRun gs st1

/-- `resolve_conflicts_for_prefix(repo_root, specs, prefix, dry_run)`. -/
def resolveConflictsForPrefix (fs : FS) (specs : List SpecFile) (pfx : Str)
    (dryRun : Bool) : Except Unit RunState :=
  let idxs := scopedIdxOf specs pfx
  let width := widthOf (scopedRecs specs idxs)
  resolveGroups pfx idxs width dryRun (sortGroups (buildGroups specs idxs))
    { lines := [], fs := fs, specs := specs, count := 0, trace := [] }

/-- A single-family run followed by `main`'s summary line. -/
def runFamily (fs : FS) (specs : List SpecFile) (pfx : Str) (dryRun : Bool) :
    Except Unit (List OutLine × FS) :=
  match resolveConflictsForPrefix fs specs pfx dryRun with
  | .error e => .error e
  | .ok st =>
    .ok (st.lines ++ [if st.count = 0 then OutLine.summaryNone
                      else OutLine.summaryResolved st.count dryRun], st.fs)

/-! ## Scanner and orchestrator -/

/-- Parse `TOKEN-TAIL.md` after the prefix: the token is a maximal alphanumeric
run starting with a digit, then a dash, then a nonempty tail, then `.md`. -/
def parseTokTail (s : Str) : Option (Str × Str) :=
  let tok := s.takeWhile Char.isAlphanum
  match tok, s.drop tok.length with
  | [], _ => none
  | c :: cs, '-' :: rest =>
    if c.isDigit ∧ 4 ≤ rest.length ∧
        rest.drop (rest.length - 3) = ('.' :: 'm' :: 'd' :: []) then
      some (c :: cs, rest.take (rest.length - 3))
    else none
  | _ :: _, _ => none

def ossTag : Str := "SPEC".toList
def entTag : Str := "SPEC-ENT".toList

/-- The filename grammar `^(SPEC(?:-ENT)?)-([0-9]+[A-Za-z0-9]*)-(.+)\.md$`
(the `SPEC-ENT` alternative is tried first; falling back to `SPEC` can never
succeed on a `SPEC-ENT-` name because `E` is not a digit). -/
def parseSpecName (name : Str) : Option (Str × Str × Str) :=
  if (entTag ++ ['-']).isPrefixOf name then
    match parseTokTail (name.drop (entTag.length + 1)) with
    | some (tok, tl) => some (entTag, tok, tl)
    | none => none
  else if (ossTag ++ ['-']).isPrefixOf name then
    match parseTokTail (name.drop (ossTag.length + 1)) with
    | some (tok, tl) => some (ossTag, tok, tl)
    | none => none
  else none

/-- `iter_spec_files(specs_root)`: every `.md` file under the root whose
immediate parent directory is not `analysis` and whose basename matches the
grammar; `mt` supplies the scan-time mtime. -/
def iterSpecFiles (fs : FS) (mt : Pth → Nat) (root : List Str) : List SpecFile :=
  fs.filterMap (fun e =>
    if root.isPrefixOf e.dirs ∧ e.dirs.getLast? ≠ some ("analysis".toList) then
      match parseSpecName e.name with
      | some r => some { path := { dirs := e.dirs, name := e.name },
                         pfx := r.1, token := r.2.1, tail := r.2.2,
                         mtime := mt { dirs := e.dirs, name := e.name } }
      | none => none
    else none)

/-- `find_specs_root`: of the two candidate roots, those that exist. -/
def findSpecsRoot (dirsExisting : List (List Str)) : List (List Str) :=
  [[".ai".toList, "specs".toList], ["ai".toList, "specs".toList]].filter
    (fun c => dirsExisting.contains c)

/-- The per-root loop of `main`: scan, then resolve the base family and the
extended family against the same shared record list. -/
def mainLoop (mt : Pth → Nat) (dryRun : Bool) :
    List (List Str) → FS → Except Unit (List OutLine × FS × Nat)
  | [], fs => .ok ([], fs, 0)
  | root :: rest, fs =>
    let specs := iterSpecFiles fs mt root
    if specs.isEmpty then
      match mainLoop mt dryRun rest fs with
      | .error e => .error e
      | .ok r => .ok (OutLine.noSpecsIn root :: r.1, r.2.1, r.2.2)
    else
      match resolveConflictsForPrefix fs specs ossTag dryRun with
      | .error e => .error e
      | .ok st1 =>
        match resolveConflictsForPrefix st1.fs st1.specs entTag dryRun with
        | .error e => .error e
        | .ok st2 =>
          match mainLoop mt dryRun rest st2.fs with
          | .error e => .error e
          | .ok r =>
            .ok (OutLine.scanning root :: (st1.lines ++ st2.lines ++ r.1),
                 r.2.1, st1.count + st2.count + r.2.2)

/-- `main()`: returns the printed lines, the final filesystem, and the exit
code (`1` exactly when no registry root exists, otherwise `0`). -/
def mainModel (dirsExisting : List (List Str)) (fs : FS) (mt : Pth → Nat)
    (applyFlag : Bool) : Except Unit (List OutLine × FS × Nat) :=
  match findSpecsRoot dirsExisting with
  | [] => .ok ([OutLine.noRoots], fs, 1)
  | r :: rs =>
    match mainLoop mt (!applyFlag) (r :: rs) fs with
    | .error e => .error e
    | .ok res =>
      .ok (res.1 ++ [if res.2.2 = 0 then OutLine.summaryNone
                     else OutLine.summaryResolved res.2.2 (!applyFlag)],
           res.2.1, 0)

/-! ## Arithmetic lemmas about the decimal rendering and the allocator -/

theorem digitChar_isDigit (n : Nat) : (digitChar n).isDigit = true := by
  unfold digitChar
  repeat' split
  all_goals decide

theorem digitChar_val (n : Nat) (h : n < 10) :
    (digitChar n).toNat - '0'.toNat = n := by
  interval_cases n <;> decide

theorem digitsToNat_append_digit (l : Str) (c : Char) :
    digitsToNat (l ++ [c]) = digitsToNat l * 10 + (c.toNat - '0'.toNat) := by
  unfold digitsToNat
  rw [List.foldl_append]
  rfl

theorem natToDigitsAux_val (fuel : Nat) :
    ∀ n, n < fuel → digitsToNat (natToDigitsAux fuel n) = n := by
  induction fuel with
  | zero => intro n h; omega
  | succ fuel ih =>
    intro n h
    unfold natToDigitsAux
    by_cases h10 : n < 10
    · simp only [if_pos h10]
      show digitsToNat ([] ++ [digitChar n]) = n
      rw [digitsToNat_append_digit, digitChar_val n h10]
      simp [digitsToNat]
    · simp only [if_neg h10]
      rw [digitsToNat_append_digit, ih (n / 10) (by omega),
        digitChar_val (n % 10) (Nat.mod_lt n (by omega))]
      omega

theorem natToDigits_val (n : Nat) : digitsToNat (natToDigits n) = n :=
  natToDigitsAux_val (n + 1) n (Nat.lt_succ_self n)

theorem natToDigitsAux_digits (fuel : Nat) :
    ∀ n c, c ∈ natToDigitsAux fuel n → c.isDigit = true := by
  induction fuel with
  | zero => intro n c h; simp [natToDigitsAux] at h
  | succ fuel ih =>
    intro n c h
    unfold natToDigitsAux at h
    by_cases h10 : n < 10
    · simp only [if_pos h10, List.mem_singleton] at h
      exact h ▸ digitChar_isDigit n
    · simp only [if_neg h10, List.mem_append, List.mem_singleton] at h
      rcases h with h | h
      · exact ih (n / 10) c h
      · exact h ▸ digitChar_isDigit (n % 10)

theorem natToDigitsAux_ne_nil (fuel n : Nat) (h : n < fuel) :
    natToDigitsAux fuel n ≠ [] := by
  cases fuel with
  | zero => omega
  | succ fuel =>
    unfold natToDigitsAux
    by_cases h10 : n < 10
    · simp [if_pos h10]
    · simp [if_neg h10]

theorem digitsToNat_replicate_zero (k : Nat) :
    List.foldl (fun a c => a * 10 + (c.toNat - '0'.toNat)) 0
      (List.replicate k '0') = 0 := by
  induction k with
  | zero => rfl
  | succ k ih =>
    rw [List.replicate_succ]
    show List.foldl _ (0 * 10 + ('0'.toNat - '0'.toNat)) _ = 0
    simpa using ih

theorem digitsToNat_zfill (s : Str) (w : Nat) :
    digitsToNat (zfill s w) = digitsToNat s := by
  unfold zfill digitsToNat
  rw [List.foldl_append, digitsToNat_replicate_zero]

theorem isNumTok_zfill (s : Str) (w : Nat) (hne : s ≠ [])
    (hd : ∀ c ∈ s, c.isDigit = true) : isNumTok (zfill s w) = true := by
  unfold isNumTok zfill
  rw [Bool.and_eq_true]
  constructor
  · cases h : List.replicate (w - s.length) '0' ++ s with
    | nil => exact absurd (List.append_eq_nil.mp h).2 hne
    | cons a l => rfl
  · rw [List.all_eq_true]
    intro c hc
    rcases List.mem_append.mp hc with h | h
    · rw [List.eq_of_mem_replicate h]; rfl
    · exact hd c h

/-- The allocator's result: a purely numeric token whose value is one plus the
maximum numeric value in the current family list. -/
theorem nextNumericToken_val (recs : List SpecFile) (w : Nat) :
    digitsToNat (nextNumericToken recs w) = maxNumVal recs + 1 ∧
    isNumTok (nextNumericToken recs w) = true := by
  unfold nextNumericToken
  refine ⟨?_, ?_⟩
  · rw [digitsToNat_zfill, natToDigits_val]
  · exact isNumTok_zfill _ _ (natToDigitsAux_ne_nil _ _ (Nat.lt_succ_self _))
      (fun c hc => natToDigitsAux_digits _ _ c hc)

theorem maxNumVal_init_le (l : List SpecFile) :
    ∀ a, a ≤ l.foldl
      (fun m s => if isNumTok s.token then Nat.max m (digitsToNat s.token) else m) a := by
  induction l with
  | nil => intro a; exact Nat.le_refl a
  | cons x l ih =>
    intro a
    refine Nat.le_trans ?_ (ih _)
    show a ≤ if isNumTok x.token then Nat.max a (digitsToNat x.token) else a
    split
    · exact Nat.le_max_left _ _
    · exact Nat.le_refl a

theorem maxNumVal_foldl_mem_le (l : List SpecFile) (s : SpecFile) (hs : s ∈ l)
    (hnum : isNumTok s.token = true) :
    ∀ a, digitsToNat s.token ≤ l.foldl
      (fun m s => if isNumTok s.token then Nat.max m (digitsToNat s.token) else m) a := by
  induction l with
  | nil => cases hs
  | cons x l ih =>
    intro a
    rcases List.mem_cons.mp hs with rfl | hmem
    · refine Nat.le_trans ?_ (maxNumVal_init_le l _)
      show digitsToNat s.token ≤
        if isNumTok s.token then Nat.max a (digitsToNat s.token) else a
      rw [if_pos hnum]
      exact Nat.le_max_right _ _
    · exact ih hmem _

/-- Every numeric token in the list is bounded by `maxNumVal`. -/
theorem maxNumVal_mem_le (l : List SpecFile) (s : SpecFile) (hs : s ∈ l)
    (hnum : isNumTok s.token = true) : digitsToNat s.token ≤ maxNumVal l :=
  maxNumVal_foldl_mem_le l s hs hnum 0

/-! ## Lemmas about `pyReplace` and the reference rewriter -/

theorem pyReplaceAux_no_occur (old new : Str) :
    ∀ (s : Str) (fuel : Nat), hasOccur old s = false →
      pyReplaceAux old new fuel s = s := by
  intro s
  induction s with
  | nil => intro fuel _; cases fuel <;> rfl
  | cons c rest ih =>
    intro fuel hno
    cases fuel with
    | zero => rfl
    | succ fuel =>
      unfold hasOccur at hno
      rw [Bool.or_eq_false_iff] at hno
      unfold pyReplaceAux
      have hcond : ¬(old ≠ [] ∧ old.isPrefixOf (c :: rest) = true) := by
        intro hc
        rw [hno.1] at hc
        exact absurd hc.2 (by simp)
      rw [if_neg hcond, ih fuel hno.2]

/-- If `old` does not occur in `s`, the replacement leaves `s` unchanged. -/
theorem pyReplace_no_occur (s old new : Str) (hno : hasOccur old s = false) :
    pyReplace s old new = s :=
  pyReplaceAux_no_occur old new s s.length hno

theorem ritfEntry_dirs (oldB newB : Str) (d : Bool) (e : FileEntry) :
    (ritfEntry oldB newB d e).2.dirs = e.dirs := by
  unfold ritfEntry
  repeat' split
  all_goals rfl

theorem ritfEntry_name (oldB newB : Str) (d : Bool) (e : FileEntry) :
    (ritfEntry oldB newB d e).2.name = e.name := by
  unfold ritfEntry
  repeat' split
  all_goals rfl

theorem ritfEntry_dry (oldB newB : Str) (e : FileEntry) :
    (ritfEntry oldB newB true e).2 = e := by
  unfold ritfEntry
  repeat' split
  all_goals first | rfl | simp_all

theorem ritfEntry_count_mode (oldB newB : Str) (d d' : Bool) (e : FileEntry) :
    (ritfEntry oldB newB d e).1 = (ritfEntry oldB newB d' e).1 := by
  unfold ritfEntry
  repeat' split
  all_goals rfl

theorem ritfEntry_undecodable (oldB newB : Str) (d : Bool) (e : FileEntry)
    (h : e.content = none) : ritfEntry oldB newB d e = (false, e) := by
  unfold ritfEntry
  split
  · rw [h]
  · rfl

theorem ritfEntry_no_occur (oldB newB : Str) (d : Bool) (e : FileEntry) (c : Str)
    (hc : e.content = some c) (hno : hasOccur oldB c = false) :
    ritfEntry oldB newB d e = (false, e) := by
  unfold ritfEntry
  split
  · simp [hc, pyReplace_no_occur c oldB newB hno]
  · rfl

/-- `replace_in_text_files` is the per-entry map over the walked filesystem. -/
theorem replaceInTextFiles_snd (fs : FS) (oldB newB : Str) (d : Bool) :
    (replaceInTextFiles fs oldB newB d).2 =
      fs.map (fun e => (ritfEntry oldB newB d e).2) := by
  induction fs with
  | nil => rfl
  | cons e rest ih =>
    show (_, (ritfEntry oldB newB d e).2 :: (replaceInTextFiles rest oldB newB d).2).2
      = _
    rw [List.map_cons]
    exact congrArg _ ih

/-- The count of changed files in `replace_in_text_files`. -/
theorem replaceInTextFiles_fst (fs : FS) (oldB newB : Str) (d : Bool) :
    (replaceInTextFiles fs oldB newB d).1 =
      fs.countP (fun e => (ritfEntry oldB newB d e).1) := by
  induction fs with
  | nil => rfl
  | cons e rest ih =>
    show (if (ritfEntry oldB newB d e).1 then 1 else 0) +
      (replaceInTextFiles rest oldB newB d).1 = _
    rw [List.countP_cons, ih]
    cases h : (ritfEntry oldB newB d e).1
    · simp [h]
    · simp [h, Nat.add_comm]

/-- Preview mode writes nothing in `replace_in_text_files`. -/
theorem replaceInTextFiles_dry (fs : FS) (oldB newB : Str) :
    (replaceInTextFiles fs oldB newB true).2 = fs := by
  rw [replaceInTextFiles_snd]
  have : ∀ e ∈ fs, (ritfEntry oldB newB true e).2 = e :=
    fun e _ => ritfEntry_dry oldB newB e
  calc fs.map (fun e => (ritfEntry oldB newB true e).2) = fs.map id :=
        List.map_congr_left (fun e he => this e he)
    _ = fs := List.map_id fs

/-- The reported count does not depend on the dry-run flag. -/
theorem replaceInTextFiles_count_mode (fs : FS) (oldB newB : Str) (d d' : Bool) :
    (replaceInTextFiles fs oldB newB d).1 = (replaceInTextFiles fs oldB newB d').1 := by
  rw [replaceInTextFiles_fst, replaceInTextFiles_fst]
  exact List.countP_congr (fun e _ => by
    rw [ritfEntry_count_mode oldB newB d d' e])

theorem findFile_map (fs : FS) (p : Pth) (f : FileEntry → FileEntry)
    (hkey : ∀ e, (f e).dirs = e.dirs ∧ (f e).name = e.name) :
    findFile (fs.map f) p = (findFile fs p).map f := by
  induction fs with
  | nil => rfl
  | cons e rest ih =>
    unfold findFile at *
    rw [List.map_cons, List.find?_cons, List.find?_cons]
    have hsame : sameKey p (f e) = sameKey p e := by
      unfold sameKey
      rw [(hkey e).1, (hkey e).2]
    rw [hsame]
    cases h : sameKey p e
    · exact ih
    · rfl

theorem replaceInFile_dry (fs : FS) (p : Pth) (old new : Str) (r : Bool × FS)
    (h : replaceInFile fs p old new true = .ok r) : r.2 = fs := by
  unfold replaceInFile at h
  cases hf : findFile fs p with
  | none =>
    simp only [hf] at h
    exact Except.noConfusion h
  | some e =>
    simp only [hf] at h
    cases hc : e.content with
    | none =>
      simp only [hc] at h
      exact Except.noConfusion h
    | some c =>
      simp only [hc] at h
      by_cases hu : pyReplace c old new = c
      · rw [if_pos hu] at h
        cases h
        rfl
      · rw [if_neg hu] at h
        cases h
        rfl

theorem replaceInFile_err_undecodable (fs : FS) (p : Pth) (old new : Str)
    (d : Bool) (e : FileEntry) (hf : findFile fs p = some e)
    (hc : e.content = none) : replaceInFile fs p old new d = .error () := by
  unfold replaceInFile
  simp only [hf, hc]

/-- Keys (directory, name) of all entries, for uniqueness hypotheses. -/
def fsKeys (fs : FS) : List (List Str × Str) := fs.map (fun e => (e.dirs, e.name))

theorem updateFirst_eq_map (fs : FS) (p : Pth) (f : FileEntry → FileEntry)
    (huniq : (fsKeys fs).Nodup) :
    updateFirst fs p f = fs.map (fun e => if sameKey p e then f e else e) := by
  induction fs with
  | nil => rfl
  | cons e rest ih =>
    unfold fsKeys at *
    rw [List.map_cons, List.nodup_cons] at huniq
    show (if sameKey p e then f e :: rest else e :: updateFirst rest p f) = _
    rw [List.map_cons]
    cases h : sameKey p e
    · rw [if_neg (by simp [h]), ih huniq.2, if_neg (by simp [h])]
    · rw [if_pos rfl, if_pos rfl]
      have : ∀ e' ∈ rest, ¬ sameKey p e' = true := by
        intro e' he' hk
        unfold sameKey at h hk
        rw [decide_eq_true_eq] at hk
        apply huniq.1
        have : (e.dirs, e.name) = (e'.dirs, e'.name) := by
          have he : e.dirs = p.dirs ∧ e.name = p.name := by
            by_contra hcon
            simp [hcon] at h
          rw [he.1, he.2, hk.1, hk.2]
        rw [this]
        exact List.mem_map_of_mem _ he'
      have : rest.map (fun e' => if sameKey p e' then f e' else e') = rest.map id :=
        List.map_congr_left (fun e' he' => by rw [if_neg (this e' he')]; rfl)
      rw [this, List.map_id]

/-! ## Generic list lemmas -/

theorem getD_set_eq {α : Type} [Inhabited α] (l : List α) (i : Nat) (a : α)
    (h : i < l.length) : (l.set i a).getD i default = a := by
  induction l generalizing i with
  | nil => simp at h
  | cons x xs ih =>
    cases i with
    | zero => rfl
    | succ i => exact ih i (by simpa using h)

theorem getD_set_ne {α : Type} [Inhabited α] (l : List α) (i j : Nat) (a : α)
    (h : i ≠ j) : (l.set i a).getD j default = l.getD j default := by
  induction l generalizing i j with
  | nil => simp
  | cons x xs ih =>
    cases i with
    | zero =>
      cases j with
      | zero => exact absurd rfl h
      | succ j => rfl
    | succ i =>
      cases j with
      | zero => rfl
      | succ j => exact ih i j (fun hc => h (by rw [hc]))

theorem countP_set_pos_neg {α : Type} [Inhabited α] (p : α → Bool) (l : List α)
    (i : Nat) (a : α) (hi : i < l.length) (hold : p (l.getD i default) = true)
    (hnew : p a = false) : (l.set i a).countP p + 1 = l.countP p := by
  induction l generalizing i with
  | nil => simp at hi
  | cons x xs ih =>
    cases i with
    | zero =>
      show ((a :: xs).countP p) + 1 = (x :: xs).countP p
      have hx : p x = true := hold
      rw [List.countP_cons, List.countP_cons, hnew, hx]
      simp
    | succ i =>
      show ((x :: xs.set i a).countP p) + 1 = (x :: xs).countP p
      rw [List.countP_cons, List.countP_cons]
      have := ih i (by simpa using hi) hold
      omega

theorem countP_set_neg_neg {α : Type} [Inhabited α] (p : α → Bool) (l : List α)
    (i : Nat) (a : α) (hold : p (l.getD i default) = false)
    (hnew : p a = false) : (l.set i a).countP p = l.countP p := by
  induction l generalizing i with
  | nil => rfl
  | cons x xs ih =>
    cases i with
    | zero =>
      show (a :: xs).countP p = (x :: xs).countP p
      have hx : p x = false := hold
      rw [List.countP_cons, List.countP_cons, hnew, hx]
    | succ i =>
      show (x :: xs.set i a).countP p = (x :: xs).countP p
      rw [List.countP_cons, List.countP_cons, ih i hold]

theorem countP_set_neg_pos {α : Type} [Inhabited α] (p : α → Bool) (l : List α)
    (i : Nat) (a : α) (hi : i < l.length) (hold : p (l.getD i default) = false)
    (hnew : p a = true) : (l.set i a).countP p = l.countP p + 1 := by
  induction l generalizing i with
  | nil => simp at hi
  | cons x xs ih =>
    cases i with
    | zero =>
      show (a :: xs).countP p = (x :: xs).countP p + 1
      have hx : p x = false := hold
      rw [List.countP_cons, List.countP_cons, hnew, hx]
      simp
    | succ i =>
      show (x :: xs.set i a).countP p = (x :: xs).countP p + 1
      rw [List.countP_cons, List.countP_cons, ih i (by simpa using hi) hold]
      omega

theorem countP_pos_of_getD {α : Type} [Inhabited α] (p : α → Bool) (l : List α)
    (i : Nat) (hi : i < l.length) (h : p (l.getD i default) = true) :
    1 ≤ l.countP p := by
  induction l generalizing i with
  | nil => simp at hi
  | cons x xs ih =>
    rw [List.countP_cons]
    cases i with
    | zero =>
      have hx : p x = true := h
      rw [hx]
      simp
    | succ i =>
      have := ih i (by simpa using hi) h
      omega

theorem countP_eq_range_countP {α : Type} [Inhabited α] (p : α → Bool)
    (l : List α) :
    l.countP p = (List.range l.length).countP (fun i => p (l.getD i default)) := by
  induction l with
  | nil => rfl
  | cons x xs ih =>
    rw [List.length_cons, List.range_succ_eq_map, List.countP_cons,
      List.countP_cons, List.countP_map, ih]
    have h1 : ((fun i => p ((x :: xs).getD i default)) ∘ Nat.succ)
        = fun i => p (xs.getD i default) := rfl
    have h2 : p ((x :: xs).getD 0 default) = p x := rfl
    rw [h1, h2]

theorem foldr_max_le (l : List Nat) (B : Nat) (h : ∀ x ∈ l, x ≤ B) :
    l.foldr Nat.max 0 ≤ B := by
  induction l with
  | nil => exact Nat.zero_le B
  | cons x xs ih =>
    show Nat.max x (xs.foldr Nat.max 0) ≤ B
    exact Nat.max_le.mpr ⟨h x (List.mem_cons_self x xs),
      ih (fun y hy => h y (List.mem_cons_of_mem x hy))⟩

theorem le_foldr_max (l : List Nat) (x : Nat) (hx : x ∈ l) :
    x ≤ l.foldr Nat.max 0 := by
  induction l with
  | nil => cases hx
  | cons y ys ih =>
    show x ≤ Nat.max y (ys.foldr Nat.max 0)
    rcases List.mem_cons.mp hx with rfl | h
    · exact Nat.le_max_left _ _
    · exact Nat.le_trans (ih h) (Nat.le_max_right _ _)

theorem foldl_choice_mem (C : Nat → Nat → Bool) :
    ∀ (is : List Nat) (acc : Nat),
      is.foldl (fun a j => if C a j then j else a) acc ∈ acc :: is := by
  intro is
  induction is with
  | nil => intro acc; exact List.mem_singleton.mpr rfl
  | cons j js ih =>
    intro acc
    show js.foldl _ (if C acc j then j else acc) ∈ acc :: j :: js
    rcases List.mem_cons.mp (ih (if C acc j then j else acc)) with h | h
    · rw [h]
      split
      · exact List.mem_cons_of_mem _ (List.mem_cons_self _ _)
      · exact List.mem_cons_self _ _
    · exact List.mem_cons_of_mem _ (List.mem_cons_of_mem _ h)

theorem pyMaxIdx_mem (specs : List SpecFile) (l : List Nat) (h : l ≠ []) :
    pyMaxIdx specs l ∈ l := by
  cases l with
  | nil => exact absurd rfl h
  | cons i is =>
    exact foldl_choice_mem
      (fun a j => keyLt (tieKey (specs.getD a default)) (tieKey (specs.getD j default)))
      is i

theorem insertSorted_perm (x : Str × List Nat) (l : List (Str × List Nat)) :
    (insertSorted x l).Perm (x :: l) := by
  induction l with
  | nil => exact List.Perm.refl _
  | cons y ys ih =>
    unfold insertSorted
    split
    · exact List.Perm.refl _
    · exact List.Perm.trans (List.Perm.cons y ih) (List.Perm.swap x y ys)

theorem sortGroups_perm (gs : List (Str × List Nat)) : (sortGroups gs).Perm gs := by
  induction gs with
  | nil => exact List.Perm.refl _
  | cons g gs ih =>
    show (insertSorted g (sortGroups gs)).Perm (g :: gs)
    exact List.Perm.trans (insertSorted_perm g (sortGroups gs)) (List.Perm.cons g ih)

/-! ## Family token counts, group invariants, and freshness -/

/-- Number of records of family `pfx` carrying token `t`. -/
def countTok (specs : List SpecFile) (pfx t : Str) : Nat :=
  specs.countP (fun s => decide (s.pfx = pfx ∧ s.token = t))

/-- The size of the largest token group of the family. -/
def maxGS (specs : List SpecFile) (pfx : Str) : Nat :=
  ((specs.filter (fun s => decide (s.pfx = pfx))).map
    (fun r => countTok specs pfx r.token)).foldr Nat.max 0

/-- Iterated apply-mode runs on a family, at the record level. -/
def applyIter (pfx : Str) : Nat → List SpecFile → List SpecFile
  | 0, specs => specs
  | k + 1, specs => applyIter pfx k (resolveRecordsOnly specs pfx).specs

theorem mem_scopedIdxOf (specs : List SpecFile) (pfx : Str) (i : Nat) :
    i ∈ scopedIdxOf specs pfx ↔
      i < specs.length ∧ (specs.getD i default).pfx = pfx := by
  unfold scopedIdxOf
  rw [List.mem_filter, List.mem_range, decide_eq_true_eq]

/-- The conflict groups are well-formed at the current record list: nonempty,
in range, inside the family's index set, and labelled by their key; keys are
pairwise distinct. -/
def GroupsWF (specs : List SpecFile) (idxs : List Nat) (pfx : Str)
    (gs : List (Str × List Nat)) : Prop :=
  (∀ g ∈ gs, g.2 ≠ [] ∧ ∀ i ∈ g.2, i < specs.length ∧ i ∈ idxs ∧
    (specs.getD i default).token = g.1 ∧ (specs.getD i default).pfx = pfx) ∧
  List.Pairwise (fun g h => g.1 ≠ h.1) gs

/-- `idxs` is exactly the family's index set of the current record list. -/
def IdxFam (specs : List SpecFile) (idxs : List Nat) (pfx : Str) : Prop :=
  (∀ i ∈ idxs, i < specs.length) ∧
  (∀ i, i < specs.length → ((specs.getD i default).pfx = pfx ↔ i ∈ idxs))

theorem idxFam_scopedIdxOf (specs : List SpecFile) (pfx : Str) :
    IdxFam specs (scopedIdxOf specs pfx) pfx := by
  constructor
  · intro i hi
    exact ((mem_scopedIdxOf specs pfx i).mp hi).1
  · intro i hi
    rw [mem_scopedIdxOf]
    exact ⟨fun h => ⟨hi, h⟩, fun h => h.2⟩

/-- A freshly allocated token differs from the token of every current family
record. -/
theorem fresh_ne_family (specs : List SpecFile) (idxs : List Nat) (pfx : Str)
    (width : Nat) (hfam : IdxFam specs idxs pfx) (j : Nat)
    (hj : j < specs.length) (hpfx : (specs.getD j default).pfx = pfx) :
    (specs.getD j default).token ≠ nextNumericToken (scopedRecs specs idxs) width := by
  intro heq
  have hjidx : j ∈ idxs := (hfam.2 j hj).mp hpfx
  have hmem : specs.getD j default ∈ scopedRecs specs idxs :=
    List.mem_map_of_mem _ hjidx
  have halloc := nextNumericToken_val (scopedRecs specs idxs) width
  have hnum : isNumTok (specs.getD j default).token = true := by
    rw [heq]; exact halloc.2
  have hle := maxNumVal_mem_le (scopedRecs specs idxs) _ hmem hnum
  rw [heq, halloc.1] at hle
  omega

/-- A general family token bound: any `t` below or at the current maximum (or
non-numeric) differs from the fresh token. -/
theorem fresh_ne_avoided (specs : List SpecFile) (idxs : List Nat)
    (width : Nat) (t : Str)
    (havoid : isNumTok t = false ∨
      digitsToNat t ≤ maxNumVal (scopedRecs specs idxs)) :
    nextNumericToken (scopedRecs specs idxs) width ≠ t := by
  intro heq
  have halloc := nextNumericToken_val (scopedRecs specs idxs) width
  rcases havoid with h | h
  · rw [heq] at halloc
    rw [h] at halloc
    exact Bool.false_ne_true halloc.2
  · rw [heq] at halloc
    omega

/-- After renumbering one in-range family index to the fresh token, the
family's numeric maximum strictly increases past the old one. -/
theorem maxNumVal_after_set (specs : List SpecFile) (idxs : List Nat)
    (width : Nat) (i : Nat) (hi : i < specs.length)
    (hiidx : i ∈ idxs) (r : SpecFile)
    (hr : r.token = nextNumericToken (scopedRecs specs idxs) width) :
    maxNumVal (scopedRecs specs idxs) + 1 ≤
      maxNumVal (scopedRecs (specs.set i r) idxs) := by
  have halloc := nextNumericToken_val (scopedRecs specs idxs) width
  have hmem : (specs.set i r).getD i default ∈ scopedRecs (specs.set i r) idxs :=
    List.mem_map_of_mem _ hiidx
  rw [getD_set_eq specs i r hi] at hmem
  have hnum : isNumTok r.token = true := by rw [hr]; exact halloc.2
  have := maxNumVal_mem_le (scopedRecs (specs.set i r) idxs) r hmem hnum
  rw [hr, halloc.1] at this
  exact this

/-- The index mutated by one conflicting-group step. -/
def stepIdx (st : RecState) (g : Str × List Nat) : Nat := pyMaxIdx st.specs g.2

/-- The token allocated by one conflicting-group step. -/
def stepTok (idxs : List Nat) (width : Nat) (st : RecState) : Str :=
  nextNumericToken (scopedRecs st.specs idxs) width

theorem recordStep_skip (idxs : List Nat) (width : Nat) (st : RecState)
    (g : Str × List Nat) (h : g.2.length < 2) : recordStep idxs width st g = st := by
  unfold recordStep
  rw [if_pos h]

theorem recordStep_conflict (idxs : List Nat) (width : Nat) (st : RecState)
    (g : Str × List Nat) (h : ¬ g.2.length < 2) :
    recordStep idxs width st g =
      { specs := st.specs.set (stepIdx st g)
          { st.specs.getD (stepIdx st g) default with
            token := stepTok idxs width st,
            path := { dirs := (st.specs.getD (stepIdx st g) default).path.dirs,
                      name := mkFileName (st.specs.getD (stepIdx st g) default).pfx
                        (stepTok idxs width st)
                        (st.specs.getD (stepIdx st g) default).tail } },
        count := st.count + 1,
        trace := st.trace ++ [⟨g.1, stepIdx st g, stepTok idxs width st,
          mkFileName (st.specs.getD (stepIdx st g) default).pfx
            (stepTok idxs width st) (st.specs.getD (stepIdx st g) default).tail⟩] } := by
  unfold recordStep
  rw [if_neg h]
  rfl

/-- All the record-level consequences of processing one conflicting group. -/
theorem conflict_step_facts (idxs : List Nat) (width : Nat) (pfx : Str)
    (st : RecState) (g : Str × List Nat) (gs : List (Str × List Nat))
    (hwf : GroupsWF st.specs idxs pfx (g :: gs))
    (hfam : IdxFam st.specs idxs pfx)
    (hconf : ¬ g.2.length < 2) :
    stepIdx st g ∈ g.2 ∧
    stepIdx st g < st.specs.length ∧ stepIdx st g ∈ idxs ∧
    (st.specs.getD (stepIdx st g) default).token = g.1 ∧
    (st.specs.getD (stepIdx st g) default).pfx = pfx ∧
    (recordStep idxs width st g).specs.length = st.specs.length ∧
    ((recordStep idxs width st g).specs.getD (stepIdx st g) default).token
      = stepTok idxs width st ∧
    ((recordStep idxs width st g).specs.getD (stepIdx st g) default).pfx = pfx ∧
    (∀ j, j ≠ stepIdx st g →
      (recordStep idxs width st g).specs.getD j default = st.specs.getD j default) ∧
    (∀ h ∈ gs, ∀ i ∈ h.2, i ≠ stepIdx st g) ∧
    GroupsWF (recordStep idxs width st g).specs idxs pfx gs ∧
    IdxFam (recordStep idxs width st g).specs idxs pfx ∧
    maxNumVal (scopedRecs st.specs idxs) + 1 ≤
      maxNumVal (scopedRecs (recordStep idxs width st g).specs idxs) ∧
    (recordStep idxs width st g).count = st.count + 1 ∧
    (recordStep idxs width st g).trace = st.trace ++
      [⟨g.1, stepIdx st g, stepTok idxs width st,
        mkFileName (st.specs.getD (stepIdx st g) default).pfx
          (stepTok idxs width st) (st.specs.getD (stepIdx st g) default).tail⟩] := by
  obtain ⟨hg, hpw⟩ := hwf
  have hghead := hg g (List.mem_cons_self g gs)
  have hnmem : stepIdx st g ∈ g.2 := pyMaxIdx_mem st.specs g.2 hghead.1
  obtain ⟨hlt, hidx, htok, hpfx⟩ := hghead.2 (stepIdx st g) hnmem
  have hkeyne := (List.pairwise_cons.mp hpw).1
  have hstep := recordStep_conflict idxs width st g hconf
  have hlen : (recordStep idxs width st g).specs.length = st.specs.length := by
    rw [hstep]
    exact List.length_set st.specs _ _
  have hgetEq : ((recordStep idxs width st g).specs.getD (stepIdx st g) default)
      = { st.specs.getD (stepIdx st g) default with
          token := stepTok idxs width st,
          path := { dirs := (st.specs.getD (stepIdx st g) default).path.dirs,
                    name := mkFileName (st.specs.getD (stepIdx st g) default).pfx
                      (stepTok idxs width st)
                      (st.specs.getD (stepIdx st g) default).tail } } := by
    rw [hstep]
    exact getD_set_eq st.specs _ _ hlt
  have hgetNe : ∀ j, j ≠ stepIdx st g →
      (recordStep idxs width st g).specs.getD j default = st.specs.getD j default := by
    intro j hj
    rw [hstep]
    exact getD_set_ne st.specs _ j _ (fun hc => hj (hc.symm))
  have hmemne : ∀ h ∈ gs, ∀ i ∈ h.2, i ≠ stepIdx st g := by
    intro h hm i hi hc
    have hh := (hg h (List.mem_cons_of_mem g hm)).2 i hi
    apply hkeyne h hm
    rw [← htok, ← hh.2.2.1, hc]
  refine ⟨hnmem, hlt, hidx, htok, hpfx, hlen, ?_, ?_, hgetNe, hmemne, ?_, ?_, ?_, ?_, ?_⟩
  · rw [hgetEq]
  · rw [hgetEq]
    exact hpfx
  · constructor
    · intro h hm
      refine ⟨(hg h (List.mem_cons_of_mem g hm)).1, ?_⟩
      intro i hi
      have hh := (hg h (List.mem_cons_of_mem g hm)).2 i hi
      have hne := hmemne h hm i hi
      rw [hlen, hgetNe i hne]
      exact hh
    · exact (List.pairwise_cons.mp hpw).2
  · constructor
    · intro i hi
      rw [hlen]
      exact hfam.1 i hi
    · intro i hi
      rw [hlen] at hi
      by_cases hc : i = stepIdx st g
      · rw [hc, hgetEq]
        show ((st.specs.getD (stepIdx st g) default).pfx = pfx ↔ stepIdx st g ∈ idxs)
        exact ⟨fun _ => hidx, fun _ => hpfx⟩
      · rw [hgetNe i hc]
        exact hfam.2 i hi
  · rw [hstep]
    exact maxNumVal_after_set st.specs idxs width (stepIdx st g) hlt hidx _ rfl
  · rw [hstep]
  · rw [hstep]

/-- Whether the remaining groups contain a conflicting group keyed by `t`. -/
def hasConfKey (gs : List (Str × List Nat)) (t : Str) : Bool :=
  gs.any (fun g => decide (2 ≤ g.2.length) && decide (g.1 = t))

/-- A helper to restrict well-formedness to the tail of a group list. -/
theorem groupsWF_tail (specs : List SpecFile) (idxs : List Nat) (pfx : Str)
    (g : Str × List Nat) (gs : List (Str × List Nat))
    (h : GroupsWF specs idxs pfx (g :: gs)) : GroupsWF specs idxs pfx gs :=
  ⟨fun h1 hm => h.1 h1 (List.mem_cons_of_mem g hm), (List.pairwise_cons.mp h.2).2⟩

/-- How the number of family records carrying token `t` evolves through the
conflict loop: it drops by one exactly when some conflicting group is keyed by
`t`, provided `t` cannot collide with any freshly allocated token (it is
non-numeric, or bounded by the family's current numeric maximum). -/
theorem countTok_foldl (idxs : List Nat) (width : Nat) (pfx : Str) :
    ∀ (gs : List (Str × List Nat)) (st : RecState) (t : Str),
      GroupsWF st.specs idxs pfx gs → IdxFam st.specs idxs pfx →
      (isNumTok t = false ∨
        digitsToNat t ≤ maxNumVal (scopedRecs st.specs idxs)) →
      countTok (gs.foldl (recordStep idxs width) st).specs pfx t +
          (if hasConfKey gs t then 1 else 0)
        = countTok st.specs pfx t := by
  intro gs
  induction gs with
  | nil =>
    intro st t _ _ _
    simp [hasConfKey]
  | cons g gs ih =>
    intro st t hwf hfam havoid
    rw [List.foldl_cons]
    by_cases hlen : g.2.length < 2
    · rw [recordStep_skip idxs width st g hlen]
      have hconf : hasConfKey (g :: gs) t = hasConfKey gs t := by
        unfold hasConfKey
        rw [List.any_cons]
        have : decide (2 ≤ g.2.length) = false := by
          rw [decide_eq_false_iff_not]
          omega
        rw [this, Bool.false_and, Bool.false_or]
      rw [hconf]
      exact ih st t (groupsWF_tail _ _ _ _ _ hwf) hfam havoid
    · obtain ⟨hnmem, hlt, hidx, htok, hpfx, hlen1, htok1, hpfx1, hgetNe, hmemne,
        hwf1, hfam1, hM, hcount1, htrace1⟩ :=
        conflict_step_facts idxs width pfx st g gs hwf hfam hlen
      have hstep := recordStep_conflict idxs width st g hlen
      have havoid1 : isNumTok t = false ∨
          digitsToNat t ≤ maxNumVal
            (scopedRecs (recordStep idxs width st g).specs idxs) := by
        rcases havoid with h | h
        · exact Or.inl h
        · exact Or.inr (by omega)
      have hTokNe : stepTok idxs width st ≠ t :=
        fresh_ne_avoided st.specs idxs width t havoid
      have hcnt1 : countTok (recordStep idxs width st g).specs pfx t +
          (if g.1 = t then 1 else 0) = countTok st.specs pfx t := by
        unfold countTok
        by_cases hkey : g.1 = t
        · rw [if_pos hkey]
          rw [hstep]
          exact countP_set_pos_neg _ st.specs _ _ hlt
            (by rw [decide_eq_true_eq]; exact ⟨hpfx, htok.trans hkey⟩)
            (by rw [decide_eq_false_iff_not]
                intro hc
                exact hTokNe hc.2)
        · rw [if_neg hkey]
          rw [hstep]
          rw [countP_set_neg_neg _ st.specs _ _
            (by rw [decide_eq_false_iff_not]
                intro hc
                exact hkey (htok.symm.trans hc.2))
            (by rw [decide_eq_false_iff_not]
                intro hc
                exact hTokNe hc.2)]
          omega
    -- now combine with the induction hypothesis on the mutated state
      have hrec := ih (recordStep idxs width st g) t hwf1 hfam1 havoid1
      have hone : (if (true : Bool) = true then (1 : Nat) else 0) = 1 := rfl
      have hzero : (if (false : Bool) = true then (1 : Nat) else 0) = 0 := rfl
      by_cases hkey : g.1 = t
      · have hconfhead : hasConfKey (g :: gs) t = true := by
          unfold hasConfKey
          rw [List.any_cons]
          have h1 : decide (2 ≤ g.2.length) = true := by
            rw [decide_eq_true_eq]
            omega
          have h2 : decide (g.1 = t) = true := by
            rw [decide_eq_true_eq]
            exact hkey
          rw [h1, h2]
          rfl
        have hconftail : hasConfKey gs t = false := by
          unfold hasConfKey
          rw [List.any_eq_false]
          intro h hm hc
          rw [Bool.and_eq_true, decide_eq_true_eq, decide_eq_true_eq] at hc
          exact (List.pairwise_cons.mp hwf.2).1 h hm (hkey.trans hc.2.symm)
        rw [hconfhead, hone]
        rw [hconftail, hzero] at hrec
        rw [if_pos hkey] at hcnt1
        omega
      · have hconfhead : hasConfKey (g :: gs) t = hasConfKey gs t := by
          unfold hasConfKey
          rw [List.any_cons]
          have h2 : decide (g.1 = t) = false := by
            rw [decide_eq_false_iff_not]
            exact hkey
          rw [h2, Bool.and_false, Bool.false_or]
        rw [hconfhead]
        rw [if_neg hkey] at hcnt1
        cases hck : hasConfKey gs t
        · rw [hck, hzero] at hrec
          rw [hzero]
          omega
        · rw [hck, hone] at hrec
          rw [hone]
          omega

/-- Master characterization of the conflict loop's trace: one entry per
conflicting group in order; freshly allocated tokens are numeric, strictly
above the family maximum at entry, and strictly increasing across the run;
mutated indices are one per group and pairwise distinct; untouched records are
unchanged. -/
theorem trace_foldl (idxs : List Nat) (width : Nat) (pfx : Str) :
    ∀ (gs : List (Str × List Nat)) (st : RecState),
      GroupsWF st.specs idxs pfx gs → IdxFam st.specs idxs pfx →
      ∃ tr,
        (gs.foldl (recordStep idxs width) st).trace = st.trace ++ tr ∧
        (gs.foldl (recordStep idxs width) st).count =
          st.count + (gs.filter (fun g => decide (2 ≤ g.2.length))).length ∧
        tr.map (fun e => e.groupTok) =
          (gs.filter (fun g => decide (2 ≤ g.2.length))).map (fun g => g.1) ∧
        (∀ e ∈ tr, isNumTok e.newTok = true ∧
          maxNumVal (scopedRecs st.specs idxs) < digitsToNat e.newTok ∧
          ∃ g ∈ gs, 2 ≤ g.2.length ∧ g.1 = e.groupTok ∧ e.idx ∈ g.2) ∧
        List.Pairwise (fun a b => digitsToNat a.newTok < digitsToNat b.newTok) tr ∧
        List.Pairwise (fun a b => a.idx ≠ b.idx) tr ∧
        (gs.foldl (recordStep idxs width) st).specs.length = st.specs.length ∧
        (∀ j, (∀ e ∈ tr, e.idx ≠ j) →
          (gs.foldl (recordStep idxs width) st).specs.getD j default =
            st.specs.getD j default) ∧
        (∀ e ∈ tr,
          ((gs.foldl (recordStep idxs width) st).specs.getD e.idx default).token
            = e.newTok ∧
          ((gs.foldl (recordStep idxs width) st).specs.getD e.idx default).pfx
            = pfx) := by
  intro gs
  induction gs with
  | nil =>
    intro st _ _
    refine ⟨[], by simp, by simp, by simp, ?_, ?_, ?_, rfl, ?_, ?_⟩
    · intro e he; cases he
    · exact List.Pairwise.nil
    · exact List.Pairwise.nil
    · intro j _; rfl
    · intro e he; cases he
  | cons g gs ih =>
    intro st hwf hfam
    rw [List.foldl_cons]
    by_cases hlen : g.2.length < 2
    · rw [recordStep_skip idxs width st g hlen]
      obtain ⟨tr, h1, h2, h3, h4, h5, h6, h7, h8, h9⟩ :=
        ih st (groupsWF_tail _ _ _ _ _ hwf) hfam
      have hfilter : (g :: gs).filter (fun g => decide (2 ≤ g.2.length)) =
          gs.filter (fun g => decide (2 ≤ g.2.length)) := by
        rw [List.filter_cons]
        rw [if_neg (by rw [decide_eq_true_eq]; omega)]
      refine ⟨tr, h1, ?_, ?_, ?_, h5, h6, h7, h8, h9⟩
      · rw [hfilter]; exact h2
      · rw [hfilter]; exact h3
      · intro e he
        obtain ⟨ha, hb, gg, hgg, hc⟩ := h4 e he
        exact ⟨ha, hb, gg, List.mem_cons_of_mem g hgg, hc⟩
    · obtain ⟨hnmem, hlt, hidx, htok, hpfx, hlen1, htok1, hpfx1, hgetNe, hmemne,
        hwf1, hfam1, hM, hcount1, htrace1⟩ :=
        conflict_step_facts idxs width pfx st g gs hwf hfam hlen
      obtain ⟨tr, h1, h2, h3, h4, h5, h6, h7, h8, h9⟩ :=
        ih (recordStep idxs width st g) hwf1 hfam1
      have halloc := nextNumericToken_val (scopedRecs st.specs idxs) width
      set ent : TraceEnt := ⟨g.1, stepIdx st g, stepTok idxs width st,
        mkFileName (st.specs.getD (stepIdx st g) default).pfx
          (stepTok idxs width st)
          (st.specs.getD (stepIdx st g) default).tail⟩ with hent
      have hidxtr : ∀ e ∈ tr, e.idx ≠ stepIdx st g := by
        intro e he
        obtain ⟨_, _, gg, hgg, _, _, hin⟩ := h4 e he
        exact hmemne gg hgg e.idx hin
      have hvaltr : ∀ e ∈ tr,
          digitsToNat (stepTok idxs width st) < digitsToNat e.newTok := by
        intro e he
        obtain ⟨_, hgt, _⟩ := h4 e he
        have : digitsToNat (stepTok idxs width st) =
            maxNumVal (scopedRecs st.specs idxs) + 1 := halloc.1
        omega
      have hfilter : (g :: gs).filter (fun g => decide (2 ≤ g.2.length)) =
          g :: gs.filter (fun g => decide (2 ≤ g.2.length)) := by
        rw [List.filter_cons]
        rw [if_pos (by rw [decide_eq_true_eq]; omega)]
      refine ⟨ent :: tr, ?_, ?_, ?_, ?_, ?_, ?_, ?_, ?_, ?_⟩
      · rw [h1, htrace1, List.append_assoc]
        rfl
      · rw [h2, hcount1, hfilter, List.length_cons]
        omega
      · rw [List.map_cons, h3, hfilter, List.map_cons]
      · intro e he
        rcases List.mem_cons.mp he with rfl | he'
        · refine ⟨halloc.2, ?_, g, List.mem_cons_self g gs, by omega, rfl, hnmem⟩
          show maxNumVal (scopedRecs st.specs idxs) <
            digitsToNat (nextNumericToken (scopedRecs st.specs idxs) width)
          rw [halloc.1]
          omega
        · obtain ⟨ha, hb, gg, hgg, hc⟩ := h4 e he'
          exact ⟨ha, by omega, gg, List.mem_cons_of_mem g hgg, hc⟩
      · exact List.pairwise_cons.mpr ⟨fun e he => hvaltr e he, h5⟩
      · exact List.pairwise_cons.mpr ⟨fun e he => (hidxtr e he).symm.imp id, h6⟩
      · rw [h7, hlen1]
      · intro j hj
        have hj1 : ∀ e ∈ tr, e.idx ≠ j :=
          fun e he => hj e (List.mem_cons_of_mem ent he)
        have hjent : stepIdx st g ≠ j := hj ent (List.mem_cons_self ent tr)
        rw [h8 j hj1, hgetNe j (fun hc => hjent hc.symm)]
      · intro e he
        rcases List.mem_cons.mp he with rfl | he'
        · have : (gs.foldl (recordStep idxs width)
              (recordStep idxs width st g)).specs.getD (stepIdx st g) default =
              (recordStep idxs width st g).specs.getD (stepIdx st g) default :=
            h8 (stepIdx st g) hidxtr
          rw [this]
          exact ⟨htok1, hpfx1⟩
        · exact h9 e he'

/-! ## Characterizing the conflict grouper -/

/-- The token of the record at index `i` of the shared list. -/
def tokAt (specs : List SpecFile) (i : Nat) : Str := (specs.getD i default).token

theorem addToGroups_key_iff (t : Str) (i : Nat) :
    ∀ (gs : List (Str × List Nat)) (k : Str),
      (k ∈ (addToGroups gs t i).map (fun g => g.1)) ↔
        (k ∈ gs.map (fun g => g.1) ∨ k = t) := by
  intro gs
  induction gs with
  | nil =>
    intro k
    simp [addToGroups]
  | cons g gs ih =>
    intro k
    unfold addToGroups
    split
    · rename_i heq
      rcases g with ⟨gk, gis⟩
      simp only [List.map_cons, List.mem_cons] at *
      constructor
      · intro h
        rcases h with h | h
        · exact Or.inl (Or.inl h)
        · exact Or.inl (Or.inr h)
      · intro h
        rcases h with (h | h) | h
        · exact Or.inl h
        · exact Or.inr h
        · exact Or.inl (h ▸ heq.symm)
    · rcases g with ⟨gk, gis⟩
      simp only [List.map_cons, List.mem_cons]
      rw [ih k]
      constructor
      · intro h
        rcases h with h | h | h
        · exact Or.inl (Or.inl h)
        · exact Or.inl (Or.inr h)
        · exact Or.inr h
      · intro h
        rcases h with (h | h) | h
        · exact Or.inl h
        · exact Or.inr (Or.inl h)
        · exact Or.inr (Or.inr h)

theorem addToGroups_keys_nodup (t : Str) (i : Nat) :
    ∀ (gs : List (Str × List Nat)),
      (gs.map (fun g => g.1)).Nodup →
      ((addToGroups gs t i).map (fun g => g.1)).Nodup := by
  intro gs
  induction gs with
  | nil =>
    intro _
    simp [addToGroups]
  | cons g gs ih =>
    intro hnd
    unfold addToGroups
    split
    · rcases g with ⟨gk, gis⟩
      exact hnd
    · rename_i hne
      rcases g with ⟨gk, gis⟩
      rw [List.map_cons, List.nodup_cons] at hnd ⊢
      refine ⟨?_, ih hnd.2⟩
      rw [addToGroups_key_iff]
      intro hc
      rcases hc with hc | hc
      · exact hnd.1 hc
      · exact hne hc

theorem filter_single_pos (p : Nat → Bool) (i : Nat) (h : p i = true) :
    List.filter p [i] = [i] := by
  simp [List.filter, h]

theorem filter_single_neg (p : Nat → Bool) (i : Nat) (h : p i = false) :
    List.filter p [i] = [] := by
  simp [List.filter, h]

theorem addToGroups_groups (specs : List SpecFile) (i : Nat) (proc : List Nat) :
    ∀ (gs : List (Str × List Nat)),
      (gs.map (fun g => g.1)).Nodup →
      (∀ g ∈ gs, g.2 = proc.filter (fun j => decide (tokAt specs j = g.1)) ∧
        g.2 ≠ []) →
      (tokAt specs i ∉ gs.map (fun g => g.1) →
        proc.filter (fun j => decide (tokAt specs j = tokAt specs i)) = []) →
      ∀ g ∈ addToGroups gs (tokAt specs i) i,
        g.2 = (proc ++ [i]).filter (fun j => decide (tokAt specs j = g.1)) ∧
          g.2 ≠ [] := by
  intro gs
  induction gs with
  | nil =>
    intro _ _ hempty g hg
    unfold addToGroups at hg
    rcases List.mem_singleton.mp hg with rfl
    constructor
    · rw [List.filter_append]
      rw [hempty (by simp)]
      rw [filter_single_pos _ _ (by simp)]
      rfl
    · simp
  | cons g0 gs ih =>
    intro hnd hgs hempty g hg
    unfold addToGroups at hg
    rcases g0 with ⟨gk, gis⟩
    rw [List.map_cons, List.nodup_cons] at hnd
    by_cases hk : gk = tokAt specs i
    · rw [if_pos hk] at hg
      rcases List.mem_cons.mp hg with rfl | hmem
      · have hbase := hgs (gk, gis) (List.mem_cons_self _ _)
        constructor
        · show gis ++ [i] = _
          rw [List.filter_append, ← hbase.1,
            filter_single_pos _ _ (by rw [decide_eq_true_eq]; exact hk.symm)]
        · simp
      · have hbase := hgs g (List.mem_cons_of_mem _ hmem)
        have hne : tokAt specs i ≠ g.1 := by
          intro hc
          apply hnd.1
          rw [hk, hc]
          exact List.mem_map_of_mem (fun g => g.1) hmem
        constructor
        · rw [List.filter_append, ← hbase.1,
            filter_single_neg _ _ (by rw [decide_eq_false_iff_not]; exact hne),
            List.append_nil]
        · exact hbase.2
    · rw [if_neg hk] at hg
      rcases List.mem_cons.mp hg with rfl | hmem
      · have hbase := hgs (gk, gis) (List.mem_cons_self _ _)
        constructor
        · rw [List.filter_append, ← hbase.1,
            filter_single_neg _ _
              (by rw [decide_eq_false_iff_not]; exact fun hc => hk hc.symm),
            List.append_nil]
        · exact hbase.2
      · exact ih hnd.2 (fun g hg => hgs g (List.mem_cons_of_mem _ hg))
          (fun hnot => hempty (fun hc => by
            rw [List.map_cons, List.mem_cons] at hc
            rcases hc with hc | hc
            · exact hk hc.symm
            · exact hnot hc))
          g hmem

theorem buildGroups_fold_inv (specs : List SpecFile) :
    ∀ (l proc : List Nat) (gs : List (Str × List Nat)),
      (gs.map (fun g => g.1)).Nodup →
      (∀ g ∈ gs, g.2 = proc.filter (fun j => decide (tokAt specs j = g.1)) ∧
        g.2 ≠ []) →
      (∀ k, k ∈ gs.map (fun g => g.1) ↔ ∃ j ∈ proc, tokAt specs j = k) →
      ((l.foldl (fun gs i => addToGroups gs (tokAt specs i) i) gs).map
        (fun g => g.1)).Nodup ∧
      (∀ g ∈ l.foldl (fun gs i => addToGroups gs (tokAt specs i) i) gs,
        g.2 = (proc ++ l).filter (fun j => decide (tokAt specs j = g.1)) ∧
        g.2 ≠ []) ∧
      (∀ k, k ∈ (l.foldl (fun gs i => addToGroups gs (tokAt specs i) i) gs).map
          (fun g => g.1) ↔ ∃ j ∈ proc ++ l, tokAt specs j = k) := by
  intro l
  induction l with
  | nil =>
    intro proc gs hnd hgs hcomp
    rw [List.foldl_nil]
    refine ⟨hnd, ?_, ?_⟩
    · intro g hg
      rw [List.append_nil]
      exact hgs g hg
    · intro k
      rw [List.append_nil]
      exact hcomp k
  | cons i l ih =>
    intro proc gs hnd hgs hcomp
    rw [List.foldl_cons]
    have hnd1 := addToGroups_keys_nodup (tokAt specs i) i gs hnd
    have hgs1 := addToGroups_groups specs i proc gs hnd hgs
      (fun hnot => by
        rw [List.filter_eq_nil_iff]
        intro j hj hc
        rw [decide_eq_true_eq] at hc
        exact hnot ((hcomp (tokAt specs i)).mpr ⟨j, hj, hc⟩))
    have hcomp1 : ∀ k,
        k ∈ (addToGroups gs (tokAt specs i) i).map (fun g => g.1) ↔
          ∃ j ∈ proc ++ [i], tokAt specs j = k := by
      intro k
      rw [addToGroups_key_iff, hcomp k]
      constructor
      · intro h
        rcases h with ⟨j, hj, hjk⟩ | rfl
        · exact ⟨j, List.mem_append_left _ hj, hjk⟩
        · exact ⟨i, List.mem_append_right _ (List.mem_singleton.mpr rfl), rfl⟩
      · intro ⟨j, hj, hjk⟩
        rcases List.mem_append.mp hj with hj | hj
        · exact Or.inl ⟨j, hj, hjk⟩
        · rw [List.mem_singleton.mp hj] at hjk
          exact Or.inr hjk.symm
    have := ih (proc ++ [i]) (addToGroups gs (tokAt specs i) i) hnd1 hgs1 hcomp1
    rw [List.append_assoc] at this
    exact this

/-- The characterization of `buildGroups`: keys are distinct, each group is
exactly the ordered family indices carrying its key, and there is a group for
each occurring token. -/
theorem buildGroups_char (specs : List SpecFile) (idxs : List Nat) :
    ((buildGroups specs idxs).map (fun g => g.1)).Nodup ∧
    (∀ g ∈ buildGroups specs idxs,
      g.2 = idxs.filter (fun j => decide (tokAt specs j = g.1)) ∧ g.2 ≠ []) ∧
    (∀ k, k ∈ (buildGroups specs idxs).map (fun g => g.1) ↔
      ∃ j ∈ idxs, tokAt specs j = k) := by
  have h := buildGroups_fold_inv specs idxs [] [] List.nodup_nil
    (fun g hg => absurd hg (List.not_mem_nil g))
    (fun k => by simp)
  simp only [List.nil_append] at h
  exact h

/-! ## Run-level record lemmas -/

theorem initial_groupsWF (specs : List SpecFile) (pfx : Str) :
    GroupsWF specs (scopedIdxOf specs pfx) pfx
      (sortGroups (buildGroups specs (scopedIdxOf specs pfx))) := by
  obtain ⟨hnd, hgs, _⟩ := buildGroups_char specs (scopedIdxOf specs pfx)
  have hperm := sortGroups_perm (buildGroups specs (scopedIdxOf specs pfx))
  constructor
  · intro g hg
    have hg1 := hperm.mem_iff.mp hg
    obtain ⟨heq, hne⟩ := hgs g hg1
    refine ⟨hne, ?_⟩
    intro i hi
    rw [heq, List.mem_filter] at hi
    obtain ⟨hidx, htok⟩ := hi
    rw [decide_eq_true_eq] at htok
    obtain ⟨hlt, hpfx⟩ := (mem_scopedIdxOf specs pfx i).mp hidx
    exact ⟨hlt, hidx, htok, hpfx⟩
  · rw [List.Nodup, List.pairwise_map] at hnd
    exact (hperm.pairwise_iff (fun h => Ne.symm h)).mpr hnd

theorem range_filter_map_getD {α : Type} [Inhabited α] (l : List α) (p : α → Bool) :
    (((List.range l.length).filter (fun i => p (l.getD i default))).map
      (fun i => l.getD i default)) = l.filter p := by
  induction l with
  | nil => rfl
  | cons x xs ih =>
    rw [List.length_cons, List.range_succ_eq_map, List.filter_cons]
    have hcomp : (fun i => p ((x :: xs).getD i default)) ∘ Nat.succ
        = fun i => p (xs.getD i default) := rfl
    have hmaps : (((List.range xs.length).map Nat.succ).filter
          (fun i => p ((x :: xs).getD i default))).map
          (fun i => (x :: xs).getD i default)
        = ((List.range xs.length).filter (fun i => p (xs.getD i default))).map
          (fun i => xs.getD i default) := by
      rw [List.filter_map, hcomp, List.map_map]
      rfl
    by_cases hx : p x
    · have h0 : p ((x :: xs).getD 0 default) = true := hx
      rw [if_pos h0, List.map_cons, hmaps, ih, List.filter_cons, if_pos hx]
      rfl
    · have h0 : ¬ p ((x :: xs).getD 0 default) = true := hx
      rw [if_neg h0, hmaps, ih, List.filter_cons, if_neg hx]

theorem scopedRecs_eq_filter (specs : List SpecFile) (pfx : Str) :
    scopedRecs specs (scopedIdxOf specs pfx) =
      specs.filter (fun s => decide (s.pfx = pfx)) :=
  range_filter_map_getD specs (fun s => decide (s.pfx = pfx))

/-- The size of the token-`t` group equals the family count of `t`. -/
theorem countTok_eq_filter_length (specs : List SpecFile) (pfx t : Str) :
    countTok specs pfx t =
      ((scopedIdxOf specs pfx).filter
        (fun j => decide (tokAt specs j = t))).length := by
  unfold countTok scopedIdxOf
  rw [countP_eq_range_countP, ← List.countP_eq_length_filter, List.countP_filter]
  refine List.countP_congr ?_
  intro j _
  show decide ((specs.getD j default).pfx = pfx ∧ (specs.getD j default).token = t)
        = true
      ↔ (decide (tokAt specs j = t) && decide ((specs.getD j default).pfx = pfx))
        = true
  rw [decide_eq_true_eq, Bool.and_eq_true, decide_eq_true_eq, decide_eq_true_eq]
  unfold tokAt
  exact ⟨fun h => ⟨h.2, h.1⟩, fun h => ⟨h.2, h.1⟩⟩

/-- `hasConfKey` on the sorted groups detects exactly the tokens that at least
two family records carry. -/
theorem hasConfKey_sorted_iff (specs : List SpecFile) (pfx t : Str) :
    hasConfKey (sortGroups (buildGroups specs (scopedIdxOf specs pfx))) t = true
      ↔ 2 ≤ countTok specs pfx t := by
  obtain ⟨_, hgs, hcomp⟩ := buildGroups_char specs (scopedIdxOf specs pfx)
  have hperm := sortGroups_perm (buildGroups specs (scopedIdxOf specs pfx))
  unfold hasConfKey
  rw [List.any_eq_true]
  constructor
  · intro ⟨g, hg, hgp⟩
    rw [Bool.and_eq_true, decide_eq_true_eq, decide_eq_true_eq] at hgp
    have hg1 := hperm.mem_iff.mp hg
    have := (hgs g hg1).1
    rw [countTok_eq_filter_length, ← hgp.2, ← this]
    exact hgp.1
  · intro h
    have hocc : ∃ j ∈ scopedIdxOf specs pfx, tokAt specs j = t := by
      rw [countTok_eq_filter_length] at h
      have hpos : 0 < ((scopedIdxOf specs pfx).filter
          (fun j => decide (tokAt specs j = t))).length := by omega
      rcases List.exists_mem_of_length_pos hpos with ⟨j, hj⟩
      rw [List.mem_filter, decide_eq_true_eq] at hj
      exact ⟨j, hj.1, hj.2⟩
    obtain ⟨g, hg1, hkey⟩ := List.mem_map.mp ((hcomp t).mpr hocc)
    refine ⟨g, hperm.mem_iff.mpr hg1, ?_⟩
    rw [Bool.and_eq_true, decide_eq_true_eq, decide_eq_true_eq]
    refine ⟨?_, hkey⟩
    rw [(hgs g hg1).1, hkey, ← countTok_eq_filter_length]
    exact h

theorem resolveRecordsOnly_eq (specs : List SpecFile) (pfx : Str) :
    resolveRecordsOnly specs pfx =
      (sortGroups (buildGroups specs (scopedIdxOf specs pfx))).foldl
        (recordStep (scopedIdxOf specs pfx)
          (widthOf (scopedRecs specs (scopedIdxOf specs pfx))))
        { specs := specs, count := 0, trace := [] } := rfl

theorem getD_mem_of_lt {α : Type} [Inhabited α] (l : List α) (j : Nat)
    (h : j < l.length) : l.getD j default ∈ l := by
  induction l generalizing j with
  | nil => simp at h
  | cons x xs ih =>
    cases j with
    | zero => exact List.mem_cons_self x xs
    | succ j => exact List.mem_cons_of_mem x (ih j (by simpa using h))

theorem mem_iff_getD {α : Type} [Inhabited α] (l : List α) (a : α) (h : a ∈ l) :
    ∃ j, j < l.length ∧ l.getD j default = a := by
  induction l with
  | nil => cases h
  | cons x xs ih =>
    rcases List.mem_cons.mp h with rfl | h'
    · exact ⟨0, by simp, rfl⟩
    · obtain ⟨j, hj, hja⟩ := ih h'
      exact ⟨j + 1, by simpa using hj, hja⟩

theorem pairwise_two_sided {α : Type} (R : α → α → Prop) (l : List α)
    (h : l.Pairwise R) :
    ∀ a ∈ l, ∀ b ∈ l, a = b ∨ R a b ∨ R b a := by
  induction l with
  | nil => intro a ha; cases ha
  | cons x xs ih =>
    rw [List.pairwise_cons] at h
    intro a ha b hb
    rcases List.mem_cons.mp ha with rfl | ha'
    · rcases List.mem_cons.mp hb with rfl | hb'
      · exact Or.inl rfl
      · exact Or.inr (Or.inl (h.1 b hb'))
    · rcases List.mem_cons.mp hb with rfl | hb'
      · exact Or.inr (Or.inr (h.1 a ha'))
      · exact ih h.2 a ha' b hb'

theorem countP_range_unique (p : Nat → Bool) :
    ∀ (n i : Nat), i < n → (∀ j, j < n → (p j = true ↔ j = i)) →
      (List.range n).countP p = 1 := by
  intro n
  induction n with
  | zero => intro i hi; omega
  | succ n ih =>
    intro i hi hp
    rw [List.range_succ, List.countP_append]
    by_cases hin : i = n
    · have h0 : (List.range n).countP p = 0 := by
        rw [List.countP_eq_zero]
        intro j hj
        rw [List.mem_range] at hj
        intro hc
        rw [(hp j (by omega)).mp hc] at hj
        omega
      have h1 : p n = true := (hp n (by omega)).mpr hin.symm
      rw [h0, List.countP_cons, List.countP_nil, h1]
      rfl
    · have h1 : (List.range n).countP p = 1 :=
        ih i (by omega) (fun j hj => hp j (by omega))
      have h2 : p n = false := by
        cases hc : p n
        · rfl
        · exact absurd ((hp n (by omega)).mp hc) (fun h => hin h.symm)
      rw [h1, List.countP_cons, List.countP_nil, h2]
      rfl

/-- The family count of a token carried by some family record is bounded by
the largest group size. -/
theorem countTok_le_maxGS (specs : List SpecFile) (pfx : Str) (r : SpecFile)
    (hr : r ∈ specs) (hpfx : r.pfx = pfx) :
    countTok specs pfx r.token ≤ maxGS specs pfx := by
  unfold maxGS
  apply le_foldr_max
  exact List.mem_map_of_mem _
    (List.mem_filter.mpr ⟨hr, by rw [decide_eq_true_eq]; exact hpfx⟩)

/-- Over a whole run, the family count of any token present at the start drops
by one exactly when it labels a conflicting group. -/
theorem countTok_run (specs : List SpecFile) (pfx t : Str)
    (hpres : 1 ≤ countTok specs pfx t) :
    countTok (resolveRecordsOnly specs pfx).specs pfx t +
      (if 2 ≤ countTok specs pfx t then 1 else 0) = countTok specs pfx t := by
  have havoid : isNumTok t = false ∨
      digitsToNat t ≤ maxNumVal (scopedRecs specs (scopedIdxOf specs pfx)) := by
    cases hn : isNumTok t
    · exact Or.inl rfl
    · right
      obtain ⟨s, hs, hsp⟩ := List.countP_pos_iff.mp (show 0 < _ from hpres)
      rw [decide_eq_true_eq] at hsp
      have hmem : s ∈ scopedRecs specs (scopedIdxOf specs pfx) := by
        rw [scopedRecs_eq_filter]
        exact List.mem_filter.mpr ⟨hs, by rw [decide_eq_true_eq]; exact hsp.1⟩
      have hb := maxNumVal_mem_le _ s hmem (by rw [hsp.2]; exact hn)
      rw [hsp.2] at hb
      exact hb
  have h := countTok_foldl (scopedIdxOf specs pfx)
    (widthOf (scopedRecs specs (scopedIdxOf specs pfx))) pfx
    (sortGroups (buildGroups specs (scopedIdxOf specs pfx)))
    { specs := specs, count := 0, trace := [] } t
    (initial_groupsWF specs pfx) (idxFam_scopedIdxOf specs pfx) havoid
  rw [resolveRecordsOnly_eq]
  by_cases hconf : 2 ≤ countTok specs pfx t
  · have hck : hasConfKey
        (sortGroups (buildGroups specs (scopedIdxOf specs pfx))) t = true :=
      (hasConfKey_sorted_iff specs pfx t).mpr hconf
    rw [hck] at h
    rw [if_pos hconf]
    exact h
  · have hck : hasConfKey
        (sortGroups (buildGroups specs (scopedIdxOf specs pfx))) t = false := by
      cases hc : hasConfKey (sortGroups (buildGroups specs (scopedIdxOf specs pfx))) t
      · rfl
      · exact absurd ((hasConfKey_sorted_iff specs pfx t).mp hc) hconf
    rw [hck] at h
    rw [if_neg hconf]
    have hz : (if (false : Bool) = true then (1 : Nat) else 0) = 0 := rfl
    rw [hz] at h
    exact h

/-- Each freshly assigned token labels exactly one family record after the
run: new tokens collide neither with surviving tokens nor with each other. -/
theorem countTok_run_fresh (specs : List SpecFile) (pfx : Str) :
    ∀ e ∈ (resolveRecordsOnly specs pfx).trace,
      countTok (resolveRecordsOnly specs pfx).specs pfx e.newTok = 1 := by
  intro e he
  obtain ⟨tr, h1, h2, h3, h4, h5, h6, h7, h8, h9⟩ :=
    trace_foldl (scopedIdxOf specs pfx)
      (widthOf (scopedRecs specs (scopedIdxOf specs pfx))) pfx
      (sortGroups (buildGroups specs (scopedIdxOf specs pfx)))
      { specs := specs, count := 0, trace := [] }
      (initial_groupsWF specs pfx) (idxFam_scopedIdxOf specs pfx)
  rw [resolveRecordsOnly_eq] at he ⊢
  have htr : ((sortGroups (buildGroups specs (scopedIdxOf specs pfx))).foldl
      (recordStep (scopedIdxOf specs pfx)
        (widthOf (scopedRecs specs (scopedIdxOf specs pfx))))
      { specs := specs, count := 0, trace := [] }).trace = tr := by
    rw [h1]
    rfl
  rw [htr] at he
  have hwf := initial_groupsWF specs pfx
  have hfam := idxFam_scopedIdxOf specs pfx
  obtain ⟨hnum, hval, g, hg, hglen, hgkey, hgin⟩ := h4 e he
  have hval2 : maxNumVal (scopedRecs specs (scopedIdxOf specs pfx)) <
      digitsToNat e.newTok := hval
  have heidx : e.idx < specs.length := ((hwf.1 g hg).2 e.idx hgin).1
  -- pointwise characterization of the matching indices
  have hiff : ∀ j, j < specs.length →
      (decide
        ((((sortGroups (buildGroups specs (scopedIdxOf specs pfx))).foldl
          (recordStep (scopedIdxOf specs pfx)
            (widthOf (scopedRecs specs (scopedIdxOf specs pfx))))
          { specs := specs, count := 0, trace := [] }).specs.getD j default).pfx
            = pfx ∧
          (((sortGroups (buildGroups specs (scopedIdxOf specs pfx))).foldl
          (recordStep (scopedIdxOf specs pfx)
            (widthOf (scopedRecs specs (scopedIdxOf specs pfx))))
          { specs := specs, count := 0, trace := [] }).specs.getD j default).token
            = e.newTok) = true ↔ j = e.idx) := by
    intro j hj
    rw [decide_eq_true_eq]
    constructor
    · intro ⟨hjp, hjt⟩
      by_cases hun : ∀ e2 ∈ tr, e2.idx ≠ j
      · exfalso
        rw [h8 j hun] at hjp hjt
        have hjidx : j ∈ scopedIdxOf specs pfx := (hfam.2 j hj).mp hjp
        have hmem : specs.getD j default ∈
            scopedRecs specs (scopedIdxOf specs pfx) :=
          List.mem_map_of_mem _ hjidx
        have hb := maxNumVal_mem_le _ _ hmem (by rw [hjt]; exact hnum)
        rw [hjt] at hb
        omega
      · push_neg at hun
        obtain ⟨e2, he2, he2j⟩ := hun
        have htok2 := (h9 e2 he2).1
        rw [he2j] at htok2
        rw [htok2] at hjt
        have hdist := pairwise_two_sided _ tr h5 e2 he2 e he
        rcases hdist with rfl | hlt | hlt
        · exact he2j.symm
        · rw [hjt] at hlt; omega
        · rw [hjt] at hlt; omega
    · intro hje
      rw [hje]
      exact ⟨(h9 e he).2, (h9 e he).1⟩
  unfold countTok
  rw [countP_eq_range_countP, h7]
  show (List.range specs.length).countP _ = 1
  exact countP_range_unique _ specs.length e.idx heidx hiff

theorem natMax_ite (a b : Nat) : Nat.max a b = if a ≤ b then b else a := by
  by_cases h : a ≤ b
  · rw [if_pos h]
    exact Nat.max_eq_right h
  · rw [if_neg h]
    exact Nat.max_eq_left (by omega)

/-- One apply-mode run shrinks the largest group size (down to 1). -/
theorem maxGS_run_le (specs : List SpecFile) (pfx : Str) :
    maxGS (resolveRecordsOnly specs pfx).specs pfx ≤
      Nat.max 1 (maxGS specs pfx - 1) := by
  show (((resolveRecordsOnly specs pfx).specs.filter
      (fun s => decide (s.pfx = pfx))).map
      (fun r => countTok (resolveRecordsOnly specs pfx).specs pfx r.token)).foldr
      Nat.max 0 ≤ Nat.max 1 (maxGS specs pfx - 1)
  apply foldr_max_le
  intro x hx
  obtain ⟨r, hr, rfl⟩ := List.mem_map.mp hx
  rw [List.mem_filter, decide_eq_true_eq] at hr
  obtain ⟨j, hj, hgd⟩ := mem_iff_getD _ r hr.1
  obtain ⟨tr, h1, h2, h3, h4, h5, h6, h7, h8, h9⟩ :=
    trace_foldl (scopedIdxOf specs pfx)
      (widthOf (scopedRecs specs (scopedIdxOf specs pfx))) pfx
      (sortGroups (buildGroups specs (scopedIdxOf specs pfx)))
      { specs := specs, count := 0, trace := [] }
      (initial_groupsWF specs pfx) (idxFam_scopedIdxOf specs pfx)
  have h7s : (resolveRecordsOnly specs pfx).specs.length = specs.length := h7
  have hjlen : j < specs.length := by
    rw [← h7s]
    exact hj
  by_cases hun : ∀ e ∈ tr, e.idx ≠ j
  · -- untouched record: its token was present at the start
    have hsame : (resolveRecordsOnly specs pfx).specs.getD j default
        = specs.getD j default := h8 j hun
    have horig : specs.getD j default = r := by rw [← hsame, hgd]
    have hpres : 1 ≤ countTok specs pfx r.token := by
      apply countP_pos_of_getD _ specs j hjlen
      rw [decide_eq_true_eq, horig]
      exact ⟨hr.2, rfl⟩
    have hrun := countTok_run specs pfx r.token hpres
    have hle : countTok specs pfx r.token ≤ maxGS specs pfx := by
      apply countTok_le_maxGS specs pfx r
      · rw [← horig]
        exact getD_mem_of_lt specs j hjlen
      · exact hr.2
    by_cases hconf : 2 ≤ countTok specs pfx r.token
    · rw [if_pos hconf] at hrun
      refine Nat.le_trans ?_ (Nat.le_max_right 1 _)
      omega
    · rw [if_neg hconf] at hrun
      refine Nat.le_trans ?_ (Nat.le_max_left 1 _)
      omega
  · -- the record was renumbered: it carries a fresh token, whose count is 1
    push_neg at hun
    obtain ⟨e, he, hej⟩ := hun
    have htr : (resolveRecordsOnly specs pfx).trace = tr := by
      rw [resolveRecordsOnly_eq, h1]
      rfl
    have htok : r.token = e.newTok := by
      have h9e := (h9 e he).1
      rw [hej] at h9e
      rw [← hgd]
      exact h9e
    rw [htok]
    have hfr := countTok_run_fresh specs pfx e (by rw [htr]; exact he)
    rw [hfr]
    exact Nat.le_max_left 1 _

theorem maxGS_applyIter_le (pfx : Str) :
    ∀ (k : Nat) (specs : List SpecFile),
      maxGS (applyIter pfx k specs) pfx ≤ Nat.max 1 (maxGS specs pfx - k) := by
  intro k
  induction k with
  | zero =>
    intro specs
    show maxGS specs pfx ≤ Nat.max 1 (maxGS specs pfx - 0)
    exact Nat.le_trans (Nat.le_of_eq (by omega)) (Nat.le_max_right 1 _)
  | succ k ih =>
    intro specs
    show maxGS (applyIter pfx k (resolveRecordsOnly specs pfx).specs) pfx ≤ _
    refine Nat.le_trans (ih (resolveRecordsOnly specs pfx).specs) ?_
    have hstep := maxGS_run_le specs pfx
    rw [Nat.max_le]
    constructor
    · exact Nat.le_max_left 1 _
    · have hsub : maxGS (resolveRecordsOnly specs pfx).specs pfx - k ≤
          Nat.max 1 (maxGS specs pfx - 1) - k := by omega
      refine Nat.le_trans hsub ?_
      rw [natMax_ite, natMax_ite]
      split
      · split <;> omega
      · split <;> omega

/-- When no group has two or more members, a run reports zero conflicts. -/
theorem count_zero_of_maxGS_le_one (specs : List SpecFile) (pfx : Str)
    (h : maxGS specs pfx ≤ 1) : (resolveRecordsOnly specs pfx).count = 0 := by
  obtain ⟨tr, h1, h2, h3, h4, h5, h6, h7, h8, h9⟩ :=
    trace_foldl (scopedIdxOf specs pfx)
      (widthOf (scopedRecs specs (scopedIdxOf specs pfx))) pfx
      (sortGroups (buildGroups specs (scopedIdxOf specs pfx)))
      { specs := specs, count := 0, trace := [] }
      (initial_groupsWF specs pfx) (idxFam_scopedIdxOf specs pfx)
  have hcnt : (resolveRecordsOnly specs pfx).count =
      ((sortGroups (buildGroups specs (scopedIdxOf specs pfx))).filter
        (fun g => decide (2 ≤ g.2.length))).length := by
    rw [resolveRecordsOnly_eq, h2]
    show 0 + _ = _
    omega
  rw [hcnt]
  have hnil : (sortGroups (buildGroups specs (scopedIdxOf specs pfx))).filter
      (fun g => decide (2 ≤ g.2.length)) = [] := by
    rw [List.filter_eq_nil_iff]
    intro g hg hc
    rw [decide_eq_true_eq] at hc
    have hwf := initial_groupsWF specs pfx
    obtain ⟨hne, hmem⟩ := hwf.1 g hg
    have hperm := sortGroups_perm (buildGroups specs (scopedIdxOf specs pfx))
    obtain ⟨heq, _⟩ := (buildGroups_char specs (scopedIdxOf specs pfx)).2.1 g
      (hperm.mem_iff.mp hg)
    obtain ⟨i, hi⟩ := List.exists_mem_of_length_pos (by omega : 0 < g.2.length)
    obtain ⟨hilt, _, hitok, hipfx⟩ := hmem i hi
    have hsz : countTok specs pfx g.1 = g.2.length := by
      rw [countTok_eq_filter_length, heq]
    have hle : countTok specs pfx g.1 ≤ maxGS specs pfx := by
      have hb := countTok_le_maxGS specs pfx (specs.getD i default)
        (getD_mem_of_lt specs i hilt) hipfx
      rw [hitok] at hb
      exact hb
    omega
  rw [hnil]
  rfl

/-- The record-level content of claim C4: after `maxGS - 1` apply-mode runs,
a further run reports zero conflicts for the family. -/
theorem applyIter_converges (specs : List SpecFile) (pfx : Str) :
    (resolveRecordsOnly (applyIter pfx (maxGS specs pfx - 1) specs) pfx).count
      = 0 := by
  apply count_zero_of_maxGS_le_one
  have hiter := maxGS_applyIter_le pfx (maxGS specs pfx - 1) specs
  have hbound : Nat.max 1 (maxGS specs pfx - (maxGS specs pfx - 1)) ≤ 1 := by
    rw [Nat.max_le]
    exact ⟨Nat.le_refl 1, by omega⟩
  exact Nat.le_trans hiter hbound

/-! ## Bridging the full loop to its record-level projection -/

theorem resolveGroupStep_record (pfx : Str) (idxs : List Nat) (width : Nat)
    (dryRun : Bool) (st : RunState) (g : Str × List Nat) (st1 : RunState)
    (h : resolveGroupStep pfx idxs width dryRun st g = .ok st1) :
    st1.specs = (recordStep idxs width ⟨st.specs, st.count, st.trace⟩ g).specs ∧
    st1.count = (recordStep idxs width ⟨st.specs, st.count, st.trace⟩ g).count ∧
    st1.trace = (recordStep idxs width ⟨st.specs, st.count, st.trace⟩ g).trace := by
  simp only [resolveGroupStep] at h
  unfold recordStep
  by_cases hlen : g.2.length < 2
  · rw [if_pos hlen] at h ⊢
    cases h
    exact ⟨rfl, rfl, rfl⟩
  · rw [if_neg hlen] at h ⊢
    split at h
    · exact Except.noConfusion h
    · cases h
      exact ⟨rfl, rfl, rfl⟩

theorem resolveGroups_record (pfx : Str) (idxs : List Nat) (width : Nat)
    (dryRun : Bool) :
    ∀ (gs : List (Str × List Nat)) (st st1 : RunState),
      resolveGroups pfx idxs width dryRun gs st = .ok st1 →
      st1.specs = (gs.foldl (recordStep idxs width)
        ⟨st.specs, st.count, st.trace⟩).specs ∧
      st1.count = (gs.foldl (recordStep idxs width)
        ⟨st.specs, st.count, st.trace⟩).count ∧
      st1.trace = (gs.foldl (recordStep idxs width)
        ⟨st.specs, st.count, st.trace⟩).trace := by
  intro gs
  induction gs with
  | nil =>
    intro st st1 h
    cases h
    exact ⟨rfl, rfl, rfl⟩
  | cons g gs ih =>
    intro st st1 h
    unfold resolveGroups at h
    cases hstep : resolveGroupStep pfx idxs width dryRun st g with
    | error e =>
      rw [hstep] at h
      exact Except.noConfusion h
    | ok st2 =>
      rw [hstep] at h
      obtain ⟨h1, h2, h3⟩ := resolveGroupStep_record pfx idxs width dryRun st g
        st2 hstep
      have hmk : (⟨st2.specs, st2.count, st2.trace⟩ : RecState)
          = recordStep idxs width ⟨st.specs, st.count, st.trace⟩ g := by
        rw [h1, h2, h3]
      rw [List.foldl_cons, ← hmk]
      exact ih st2 st1 h

/-- The shared record list, the conflict count, and the trace of a completed
run coincide with the record-level projection, in either mode. -/
theorem resolve_bridge (fs : FS) (specs : List SpecFile) (pfx : Str)
    (dryRun : Bool) (st1 : RunState)
    (h : resolveConflictsForPrefix fs specs pfx dryRun = .ok st1) :
    st1.specs = (resolveRecordsOnly specs pfx).specs ∧
    st1.count = (resolveRecordsOnly specs pfx).count ∧
    st1.trace = (resolveRecordsOnly specs pfx).trace := by
  have h2 := resolveGroups_record pfx (scopedIdxOf specs pfx)
    (widthOf (scopedRecs specs (scopedIdxOf specs pfx))) dryRun
    (sortGroups (buildGroups specs (scopedIdxOf specs pfx)))
    { lines := [], fs := fs, specs := specs, count := 0, trace := [] } st1 h
  rw [resolveRecordsOnly_eq]
  exact h2

/-! ## Preview mode never touches the filesystem -/

theorem resolveGroupStep_dry_fs (pfx : Str) (idxs : List Nat) (width : Nat)
    (st : RunState) (g : Str × List Nat) (st1 : RunState)
    (h : resolveGroupStep pfx idxs width true st g = .ok st1) : st1.fs = st.fs := by
  simp only [resolveGroupStep] at h
  by_cases hlen : g.2.length < 2
  · rw [if_pos hlen] at h
    cases h
    rfl
  · rw [if_neg hlen] at h
    rw [replaceInTextFiles_dry] at h
    split at h
    · exact Except.noConfusion h
    · rename_i q hrf
      cases h
      show q.2 = st.fs
      exact replaceInFile_dry st.fs _ _ _ q hrf

theorem resolveGroups_dry_fs (pfx : Str) (idxs : List Nat) (width : Nat) :
    ∀ (gs : List (Str × List Nat)) (st st1 : RunState),
      resolveGroups pfx idxs width true gs st = .ok st1 → st1.fs = st.fs := by
  intro gs
  induction gs with
  | nil =>
    intro st st1 h
    cases h
    rfl
  | cons g gs ih =>
    intro st st1 h
    unfold resolveGroups at h
    cases hstep : resolveGroupStep pfx idxs width true st g with
    | error e =>
      rw [hstep] at h
      exact Except.noConfusion h
    | ok st2 =>
      rw [hstep] at h
      rw [ih st2 st1 h]
      exact resolveGroupStep_dry_fs pfx idxs width st g st2 hstep

theorem resolveConflictsForPrefix_dry_fs (fs : FS) (specs : List SpecFile)
    (pfx : Str) (st1 : RunState)
    (h : resolveConflictsForPrefix fs specs pfx true = .ok st1) : st1.fs = fs :=
  resolveGroups_dry_fs pfx (scopedIdxOf specs pfx)
    (widthOf (scopedRecs specs (scopedIdxOf specs pfx)))
    (sortGroups (buildGroups specs (scopedIdxOf specs pfx)))
    { lines := [], fs := fs, specs := specs, count := 0, trace := [] } st1 h

theorem mainLoop_dry_fs (mt : Pth → Nat) :
    ∀ (roots : List (List Str)) (fs : FS) (r : List OutLine × FS × Nat),
      mainLoop mt true roots fs = .ok r → r.2.1 = fs := by
  intro roots
  induction roots with
  | nil =>
    intro fs r h
    cases h
    rfl
  | cons root rest ih =>
    intro fs r h
    unfold mainLoop at h
    by_cases hempty : (iterSpecFiles fs mt root).isEmpty
    · rw [if_pos hempty] at h
      split at h
      · exact Except.noConfusion h
      · rename_i r2 hrec
        cases h
        exact ih fs r2 hrec
    · rw [if_neg hempty] at h
      split at h
      · exact Except.noConfusion h
      · rename_i st1 h1
        split at h
        · exact Except.noConfusion h
        · rename_i st2 h2
          split at h
          · exact Except.noConfusion h
          · rename_i r2 hrec
            cases h
            show r2.2.1 = fs
            rw [ih st2.fs r2 hrec,
              resolveConflictsForPrefix_dry_fs st1.fs st1.specs entTag st2 h2,
              resolveConflictsForPrefix_dry_fs fs (iterSpecFiles fs mt root)
                ossTag st1 h1]

/-! ## Claim C7: preview mode leaves the filesystem untouched -/

/-- C7: for every input repository, a preview-mode run (the default,
`applyFlag = false`) writes no file content and performs no rename: the
file set and every file's content after the run are identical to the state
before the run. -/
theorem C7_preview_preserves_fs (dirs : List (List Str)) (fs : FS)
    (mt : Pth → Nat) (r : List OutLine × FS × Nat)
    (h : mainModel dirs fs mt false = .ok r) : r.2.1 = fs := by
  unfold mainModel at h
  split at h
  · cases h
    rfl
  · split at h
    · exact Except.noConfusion h
    · rename_i res hloop
      cases h
      show res.2.1 = fs
      exact mainLoop_dry_fs mt _ fs res hloop

/-! ## Claim C8: exit status -/

/-- C8: the exit status of a completed run is 1 exactly when neither candidate
registry root exists (in which case nothing was scanned or changed and only
the error line is printed); every other completed run exits with status 0. -/
theorem C8_exit_codes (dirs : List (List Str)) (fs : FS) (mt : Pth → Nat)
    (app : Bool) (r : List OutLine × FS × Nat)
    (h : mainModel dirs fs mt app = .ok r) :
    (r.2.2 = 1 ↔ findSpecsRoot dirs = []) ∧ (r.2.2 = 0 ∨ r.2.2 = 1) ∧
    (findSpecsRoot dirs = [] → r.1 = [OutLine.noRoots] ∧ r.2.1 = fs) := by
  unfold mainModel at h
  split at h
  · rename_i heq
    cases h
    refine ⟨⟨fun _ => heq, fun _ => rfl⟩, Or.inr rfl, fun _ => ⟨rfl, rfl⟩⟩
  · rename_i r0 rs heq
    split at h
    · exact Except.noConfusion h
    · rename_i res hloop
      cases h
      refine ⟨⟨fun hc => absurd (show (0 : Nat) = 1 from hc) (by omega),
        fun hc => ?_⟩, Or.inl rfl, fun hc => ?_⟩
      · rw [heq] at hc
        exact List.noConfusion hc
      · rw [heq] at hc
        exact List.noConfusion hc

/-! ## Claim C5: the token allocator -/

/-- Spec-side reading of the allocator: the maximum integer value among
purely-numeric tokens of the family list (0 when there is none). -/
def specNumericMax (recs : List SpecFile) : Nat :=
  ((recs.filter (fun s => isNumTok s.token)).map
    (fun s => digitsToNat s.token)).foldr Nat.max 0

/-- Spec-side reading of the allocator: one plus the numeric maximum, rendered
in decimal and zero-padded to the larger of the minimum width and the
rendering's digit count. -/
def specAllocator (recs : List SpecFile) (minWidth : Nat) : Str :=
  zfill (natToDigits (specNumericMax recs + 1))
    (Nat.max minWidth (natToDigits (specNumericMax recs + 1)).length)

/-- Spec-side reading of the per-family minimum width: the maximum digit
length among all-numeric tokens, defaulting to 3 when none is numeric. -/
def specMinWidth (recs : List SpecFile) : Nat :=
  if recs.filter (fun s => isNumTok s.token) = [] then 3
  else ((recs.filter (fun s => isNumTok s.token)).map
    (fun s => s.token.length)).foldr Nat.max 0

theorem foldl_max_eq_max_foldr (l : List Nat) :
    ∀ a : Nat, l.foldl Nat.max a = Nat.max a (l.foldr Nat.max 0) := by
  induction l with
  | nil =>
    intro a
    show a = Nat.max a 0
    rw [natMax_ite]
    split <;> omega
  | cons x xs ih =>
    intro a
    rw [List.foldl_cons, List.foldr_cons, ih (Nat.max a x)]
    rw [natMax_ite, natMax_ite, natMax_ite, natMax_ite]
    (repeat' split) <;> omega

theorem maxNumVal_eq_spec (recs : List SpecFile) :
    maxNumVal recs = specNumericMax recs := by
  have key : ∀ (l : List SpecFile) (a : Nat),
      l.foldl (fun m s => if isNumTok s.token then Nat.max m (digitsToNat s.token)
        else m) a = Nat.max a (specNumericMax l) := by
    intro l
    induction l with
    | nil =>
      intro a
      show a = Nat.max a 0
      rw [natMax_ite]
      split <;> omega
    | cons s l ih =>
      intro a
      rw [List.foldl_cons, ih]
      unfold specNumericMax
      rw [List.filter_cons]
      cases hn : isNumTok s.token
      · rw [if_neg Bool.false_ne_true, if_neg Bool.false_ne_true]
      · rw [if_pos rfl, if_pos rfl, List.map_cons, List.foldr_cons]
        rw [natMax_ite, natMax_ite, natMax_ite, natMax_ite]
        (repeat' split) <;> omega
  show recs.foldl _ 0 = specNumericMax recs
  rw [key recs 0, natMax_ite]
  split <;> omega

theorem widthOf_eq_spec (recs : List SpecFile) :
    widthOf recs = specMinWidth recs := by
  unfold widthOf specMinWidth
  cases hf : recs.filter (fun s => isNumTok s.token) with
  | nil => rfl
  | cons y ys =>
    rw [if_neg (List.cons_ne_nil y ys), List.map_cons, List.foldr_cons]
    exact foldl_max_eq_max_foldr _ _

/-- C5: for every family record list, the allocator returns the decimal
rendering of one plus the maximum integer value among purely-numeric tokens
(one if there are none), zero-padded to the larger of the minimum width and
the result's digit count; the minimum width is the maximum digit length among
all-numeric tokens, defaulting to 3 when no token is numeric; non-numeric
tokens are ignored by the maximum and never block allocation (the allocator
is total and always yields a purely numeric token). -/
theorem C5_allocator_formula (recs : List SpecFile) (minWidth : Nat) :
    nextNumericToken recs minWidth = specAllocator recs minWidth ∧
    widthOf recs = specMinWidth recs ∧
    digitsToNat (nextNumericToken recs minWidth) = specNumericMax recs + 1 ∧
    isNumTok (nextNumericToken recs minWidth) = true := by
  have hmax : maxNumVal recs = specNumericMax recs := maxNumVal_eq_spec recs
  have hval := nextNumericToken_val recs minWidth
  refine ⟨?_, widthOf_eq_spec recs, ?_, hval.2⟩
  · show zfill (natToDigits (maxNumVal recs + 1))
      (Nat.max minWidth (natToDigits (maxNumVal recs + 1)).length) = _
    rw [hmax]
    rfl
  · rw [hval.1, hmax]

/-! ## Claim C9: record mutations are mode-independent -/

/-- C9: the loop updates the renumbered record's token and path in the shared
in-memory record list unconditionally, in preview mode exactly as in apply
mode: for every input registry (even against different filesystems), completed
runs of the two modes produce the same final record list, the same conflict
count, and the same sequence of allocated tokens and planned renames. -/
theorem C9_mode_independent_records (fsP fsA : FS) (specs : List SpecFile)
    (pfx : Str) (stP stA : RunState)
    (hP : resolveConflictsForPrefix fsP specs pfx true = .ok stP)
    (hA : resolveConflictsForPrefix fsA specs pfx false = .ok stA) :
    stP.specs = stA.specs ∧ stP.count = stA.count ∧ stP.trace = stA.trace := by
  obtain ⟨a1, a2, a3⟩ := resolve_bridge fsP specs pfx true stP hP
  obtain ⟨b1, b2, b3⟩ := resolve_bridge fsA specs pfx false stA hA
  exact ⟨a1.trans b1.symm, a2.trans b2.symm, a3.trans b3.symm⟩

/-! ## Claim C4: one renumbering per group, and convergence -/

/-- C4: a run renumbers exactly one record per conflicting group regardless of
group size (the trace lists exactly one entry per group with two or more
members, at pairwise distinct record indices, and the reported count equals the
number of such groups); and after `maxGS - 1` iterated apply-mode runs on a
family, one further run reports zero conflicts. -/
theorem C4_one_per_group_and_convergence (specs : List SpecFile) (pfx : Str) :
    (resolveRecordsOnly specs pfx).count =
      ((sortGroups (buildGroups specs (scopedIdxOf specs pfx))).filter
        (fun g => decide (2 ≤ g.2.length))).length ∧
    (resolveRecordsOnly specs pfx).trace.map (fun e => e.groupTok) =
      ((sortGroups (buildGroups specs (scopedIdxOf specs pfx))).filter
        (fun g => decide (2 ≤ g.2.length))).map (fun g => g.1) ∧
    List.Pairwise (fun a b => a.idx ≠ b.idx) (resolveRecordsOnly specs pfx).trace ∧
    (resolveRecordsOnly (applyIter pfx (maxGS specs pfx - 1) specs) pfx).count
      = 0 := by
  obtain ⟨tr, h1, h2, h3, h4, h5, h6, h7, h8, h9⟩ :=
    trace_foldl (scopedIdxOf specs pfx)
      (widthOf (scopedRecs specs (scopedIdxOf specs pfx))) pfx
      (sortGroups (buildGroups specs (scopedIdxOf specs pfx)))
      { specs := specs, count := 0, trace := [] }
      (initial_groupsWF specs pfx) (idxFam_scopedIdxOf specs pfx)
  have htr : (resolveRecordsOnly specs pfx).trace = tr := by
    rw [resolveRecordsOnly_eq, h1]
    rfl
  refine ⟨?_, ?_, ?_, applyIter_converges specs pfx⟩
  · rw [resolveRecordsOnly_eq, h2]
    show 0 + _ = _
    omega
  · rw [htr, h3]
  · rw [htr]
    exact h6

/-! ## Claim C2: freshly assigned tokens never collide -/

/-- C2: across all conflicts resolved in one run over one family, the newly
assigned tokens are pairwise distinct, and distinct from every token that
existed in that family before the run (numeric or not), because each
allocation reads the family record list as mutated by all earlier
resolutions. -/
theorem C2_fresh_tokens_distinct (fs : FS) (specs : List SpecFile) (pfx : Str)
    (st : RunState)
    (h : resolveConflictsForPrefix fs specs pfx false = .ok st) :
    List.Pairwise (fun a b => a.newTok ≠ b.newTok) st.trace ∧
    ∀ e ∈ st.trace, ∀ s ∈ specs, s.pfx = pfx → s.token ≠ e.newTok := by
  obtain ⟨h1s, h1c, h1t⟩ := resolve_bridge fs specs pfx false st h
  obtain ⟨tr, g1, g2, g3, g4, g5, g6, g7, g8, g9⟩ :=
    trace_foldl (scopedIdxOf specs pfx)
      (widthOf (scopedRecs specs (scopedIdxOf specs pfx))) pfx
      (sortGroups (buildGroups specs (scopedIdxOf specs pfx)))
      { specs := specs, count := 0, trace := [] }
      (initial_groupsWF specs pfx) (idxFam_scopedIdxOf specs pfx)
  have htr : st.trace = tr := by
    rw [h1t, resolveRecordsOnly_eq, g1]
    rfl
  constructor
  · rw [htr]
    refine List.Pairwise.imp ?_ g5
    intro a b hlt heq
    rw [heq] at hlt
    omega
  · intro e he s hs hpfx heq
    rw [htr] at he
    obtain ⟨hnum, hval, _⟩ := g4 e he
    have hval2 : maxNumVal (scopedRecs specs (scopedIdxOf specs pfx)) <
        digitsToNat e.newTok := hval
    have hmem : s ∈ scopedRecs specs (scopedIdxOf specs pfx) := by
      rw [scopedRecs_eq_filter]
      exact List.mem_filter.mpr ⟨hs, by rw [decide_eq_true_eq]; exact hpfx⟩
    have hb := maxNumVal_mem_le _ s hmem (by rw [heq]; exact hnum)
    rw [heq] at hb
    omega

/-! ## Claim C3: which record of a dated/undated pair is renumbered -/

theorem keyLt_undated_dated (r1 r2 : SpecFile) (hd1 : datedKey r1.tail = none)
    (hd2 : (datedKey r2.tail).isSome = true) :
    keyLt (tieKey r1) (tieKey r2) = true := by
  unfold keyLt tieKey
  rw [hd1, hd2]
  rfl

theorem pyMaxIdx_pair_dated (r1 r2 : SpecFile) (hd1 : datedKey r1.tail = none)
    (hd2 : (datedKey r2.tail).isSome = true) : pyMaxIdx [r1, r2] [0, 1] = 1 := by
  show (if keyLt (tieKey r1) (tieKey r2) = true then 1 else 0) = 1
  rw [keyLt_undated_dated r1 r2 hd1 hd2]
  rfl

/-- C3 (amended): in a conflicting group of two records of which exactly the
second has a valid leading date fragment, the DATED record is the one picked
as newest and renumbered — its token changes — while the non-dated record
keeps its token unchanged; this holds for every pair of mtimes. -/
theorem C3_dated_record_is_renumbered (r1 r2 : SpecFile) (pfx : Str)
    (h1p : r1.pfx = pfx) (h2p : r2.pfx = pfx) (htok : r1.token = r2.token)
    (hd1 : datedKey r1.tail = none) (hd2 : (datedKey r2.tail).isSome = true) :
    (resolveRecordsOnly [r1, r2] pfx).trace.map (fun e => e.idx) = [1] ∧
    (resolveRecordsOnly [r1, r2] pfx).specs.getD 0 default = r1 ∧
    ((resolveRecordsOnly [r1, r2] pfx).specs.getD 1 default).token ≠ r2.token ∧
    (resolveRecordsOnly [r1, r2] pfx).count = 1 := by
  have hidxs : scopedIdxOf [r1, r2] pfx = [0, 1] := by
    unfold scopedIdxOf
    show List.filter _ [0, 1] = [0, 1]
    rw [List.filter_cons, List.filter_cons, List.filter_nil]
    rw [if_pos (by show decide (r1.pfx = pfx) = true
                   rw [decide_eq_true_eq]; exact h1p),
        if_pos (by show decide (r2.pfx = pfx) = true
                   rw [decide_eq_true_eq]; exact h2p)]
  have hbg : buildGroups [r1, r2] [0, 1] = [(r1.token, [0, 1])] := by
    show addToGroups (addToGroups [] r1.token 0) r2.token 1 = _
    show addToGroups [(r1.token, [0])] r2.token 1 = _
    unfold addToGroups
    rw [if_pos htok]
    rfl
  have hrro : resolveRecordsOnly [r1, r2] pfx =
      recordStep [0, 1] (widthOf (scopedRecs [r1, r2] [0, 1]))
        { specs := [r1, r2], count := 0, trace := [] } (r1.token, [0, 1]) := by
    rw [resolveRecordsOnly_eq, hidxs, hbg]
    rfl
  have hfam : IdxFam [r1, r2] [0, 1] pfx := by
    have := idxFam_scopedIdxOf [r1, r2] pfx
    rw [hidxs] at this
    exact this
  have hstep := recordStep_conflict [0, 1] (widthOf (scopedRecs [r1, r2] [0, 1]))
    { specs := [r1, r2], count := 0, trace := [] } (r1.token, [0, 1])
    (by show ¬ (2:Nat) < 2; decide)
  have hsi : stepIdx { specs := [r1, r2], count := 0, trace := [] }
      ((r1.token : Str), ([0, 1] : List Nat)) = 1 :=
    pyMaxIdx_pair_dated r1 r2 hd1 hd2
  rw [hrro, hstep, hsi]
  refine ⟨rfl, ?_, ?_, rfl⟩
  · exact getD_set_ne [r1, r2] 1 0 _ (by omega)
  · rw [getD_set_eq [r1, r2] 1 _ (by show (1:Nat) < 2; omega)]
    show stepTok [0, 1] (widthOf (scopedRecs [r1, r2] [0, 1]))
      { specs := [r1, r2], count := 0, trace := [] } ≠ r2.token
    intro hc
    exact fresh_ne_family [r1, r2] [0, 1] pfx
      (widthOf (scopedRecs [r1, r2] [0, 1])) hfam 1
      (by show (1:Nat) < 2; omega) h2p hc.symm

/-! ## Claim C10: undecodable files -/

/-- C10: undecodable files are tolerated during repo-wide filename
propagation (they are skipped unchanged and never abort the walk), but when
the record picked as newest has an undecodable file, the in-file identifier
replacement fails and the whole group loop aborts — in preview mode exactly
as in apply mode. -/
theorem C10_undecodable_behavior (fs : FS) (oldB newB : Str) (d : Bool)
    (pfx : Str) (idxs : List Nat) (width : Nat) (st : RunState)
    (g : Str × List Nat) (gs : List (Str × List Nat)) (e0 : FileEntry)
    (hconf : 2 ≤ g.2.length)
    (hfind : findFile st.fs
      (st.specs.getD (pyMaxIdx st.specs g.2) default).path = some e0)
    (hun : e0.content = none) :
    ((replaceInTextFiles fs oldB newB d).2 =
        fs.map (fun e => (ritfEntry oldB newB d e).2) ∧
      (∀ e ∈ fs, e.content = none → (ritfEntry oldB newB d e).2 = e)) ∧
    resolveGroupStep pfx idxs width d st g = .error () ∧
    resolveGroups pfx idxs width d (g :: gs) st = .error () := by
  have hkey : ∀ e : FileEntry,
      ((ritfEntry (st.specs.getD (pyMaxIdx st.specs g.2) default).path.name
        (mkFileName (st.specs.getD (pyMaxIdx st.specs g.2) default).pfx
          (nextNumericToken (scopedRecs st.specs idxs) width)
          (st.specs.getD (pyMaxIdx st.specs g.2) default).tail) d e).2.dirs
        = e.dirs ∧
       (ritfEntry (st.specs.getD (pyMaxIdx st.specs g.2) default).path.name
        (mkFileName (st.specs.getD (pyMaxIdx st.specs g.2) default).pfx
          (nextNumericToken (scopedRecs st.specs idxs) width)
          (st.specs.getD (pyMaxIdx st.specs g.2) default).tail) d e).2.name
        = e.name) :=
    fun e => ⟨ritfEntry_dirs _ _ _ e, ritfEntry_name _ _ _ e⟩
  have hff : findFile ((replaceInTextFiles st.fs
      (st.specs.getD (pyMaxIdx st.specs g.2) default).path.name
      (mkFileName (st.specs.getD (pyMaxIdx st.specs g.2) default).pfx
        (nextNumericToken (scopedRecs st.specs idxs) width)
        (st.specs.getD (pyMaxIdx st.specs g.2) default).tail) d).2)
      (st.specs.getD (pyMaxIdx st.specs g.2) default).path = some e0 := by
    rw [replaceInTextFiles_snd, findFile_map st.fs _ _ hkey, hfind]
    have hred := ritfEntry_undecodable
      (st.specs.getD (pyMaxIdx st.specs g.2) default).path.name
      (mkFileName (st.specs.getD (pyMaxIdx st.specs g.2) default).pfx
        (nextNumericToken (scopedRecs st.specs idxs) width)
        (st.specs.getD (pyMaxIdx st.specs g.2) default).tail) d e0 hun
    show some (ritfEntry
      (st.specs.getD (pyMaxIdx st.specs g.2) default).path.name
      (mkFileName (st.specs.getD (pyMaxIdx st.specs g.2) default).pfx
        (nextNumericToken (scopedRecs st.specs idxs) width)
        (st.specs.getD (pyMaxIdx st.specs g.2) default).tail) d e0).2 = some e0
    rw [hred]
  have herr : ∀ old new : Str,
      replaceInFile ((replaceInTextFiles st.fs
        (st.specs.getD (pyMaxIdx st.specs g.2) default).path.name
        (mkFileName (st.specs.getD (pyMaxIdx st.specs g.2) default).pfx
          (nextNumericToken (scopedRecs st.specs idxs) width)
          (st.specs.getD (pyMaxIdx st.specs g.2) default).tail) d).2)
        (st.specs.getD (pyMaxIdx st.specs g.2) default).path old new d
        = .error () :=
    fun old new => replaceInFile_err_undecodable _ _ old new d e0 hff hun
  have hstep : resolveGroupStep pfx idxs width d st g = .error () := by
    simp only [resolveGroupStep]
    rw [if_neg (by omega)]
    rw [herr]
  refine ⟨⟨replaceInTextFiles_snd fs oldB newB d, ?_⟩, hstep, ?_⟩
  · intro e _ hc
    rw [ritfEntry_undecodable oldB newB d e hc]
  · unfold resolveGroups
    rw [hstep]

/-! ## Claim C6: scoped rewrites of one conflict resolution -/

/-- The index of the record picked as newest for one conflicting group. -/
def confIdx (st : RunState) (g : Str × List Nat) : Nat := pyMaxIdx st.specs g.2

/-- The record picked as newest for one conflicting group. -/
def confRec (st : RunState) (g : Str × List Nat) : SpecFile :=
  st.specs.getD (confIdx st g) default

/-- The token allocated for one conflicting group. -/
def confNewTok (idxs : List Nat) (width : Nat) (st : RunState) : Str :=
  nextNumericToken (scopedRecs st.specs idxs) width

/-- The new filename of the renumbered record. -/
def confNewName (idxs : List Nat) (width : Nat) (st : RunState)
    (g : Str × List Nat) : Str :=
  mkFileName (confRec st g).pfx (confNewTok idxs width st) (confRec st g).tail

/-- The per-entry effect on the filesystem of resolving one conflicting group
in apply mode: every entry passes through the basename rewriter; the newest
record's own file is additionally renamed and gets the spec-id substitution. -/
def stepFileMap (idxs : List Nat) (width : Nat) (st : RunState)
    (g : Str × List Nat) (e : FileEntry) : FileEntry :=
  if sameKey (confRec st g).path e then
    { dirs := ((ritfEntry (confRec st g).path.name (confNewName idxs width st g)
        false e).2).dirs,
      name := confNewName idxs width st g,
      content := ((ritfEntry (confRec st g).path.name
        (confNewName idxs width st g) false e).2).content.map
        (fun c => pyReplace c
          (mkSpecId (confRec st g).pfx (confRec st g).token)
          (mkSpecId (confRec st g).pfx (confNewTok idxs width st))) }
  else (ritfEntry (confRec st g).path.name (confNewName idxs width st g) false e).2

theorem sameKey_congr (p : Pth) (e e2 : FileEntry) (hd : e2.dirs = e.dirs)
    (hn : e2.name = e.name) : sameKey p e2 = sameKey p e := by
  unfold sameKey
  rw [hd, hn]

theorem fsKeys_map_preserve (fs : FS) (f : FileEntry → FileEntry)
    (hkey : ∀ e, (f e).dirs = e.dirs ∧ (f e).name = e.name) :
    fsKeys (fs.map f) = fsKeys fs := by
  unfold fsKeys
  rw [List.map_map]
  exact List.map_congr_left (fun e _ => by
    show ((f e).dirs, (f e).name) = (e.dirs, e.name)
    rw [(hkey e).1, (hkey e).2])

theorem getD_map_lt {α β : Type} [Inhabited α] [Inhabited β] (l : List α)
    (f : α → β) (k : Nat) (hk : k < l.length) :
    (l.map f).getD k default = f (l.getD k default) := by
  induction l generalizing k with
  | nil => simp at hk
  | cons x xs ih =>
    cases k with
    | zero => rfl
    | succ k => exact ih k (by simpa using hk)

/-- With pairwise-distinct file keys, the entry carrying a key is the one
`findFile` returns. -/
theorem findFile_unique (fs : FS) (p : Pth) (e : FileEntry) (he : e ∈ fs)
    (hkey : sameKey p e = true) (hnd : (fsKeys fs).Nodup) :
    findFile fs p = some e := by
  induction fs with
  | nil => cases he
  | cons x rest ih =>
    unfold fsKeys at hnd
    rw [List.map_cons, List.nodup_cons] at hnd
    show (x :: rest).find? (sameKey p) = some e
    rcases List.mem_cons.mp he with rfl | he2
    · rw [List.find?_cons_of_pos rest hkey]
    · cases hx : sameKey p x with
      | false =>
        rw [List.find?_cons_of_neg rest (by rw [hx]; exact Bool.false_ne_true)]
        exact ih he2 hnd.2
      | true =>
        exfalso
        apply hnd.1
        unfold sameKey at hx hkey
        rw [decide_eq_true_eq] at hx hkey
        have hxe : (x.dirs, x.name) = (e.dirs, e.name) := by
          rw [hx.1, hx.2, hkey.1, hkey.2]
        rw [hxe]
        exact List.mem_map_of_mem _ he2

/-- The content of an entry after the apply-mode basename rewriter. -/
theorem ritfEntry_content_apply (oldB newB : Str) (e : FileEntry) (c : Str)
    (hc : e.content = some c) :
    (ritfEntry oldB newB false e).2.content =
      some (if visitedEntry e && isTextEntry e then pyReplace c oldB newB
            else c) := by
  unfold ritfEntry
  cases hv : visitedEntry e && isTextEntry e
  · rw [if_neg Bool.false_ne_true]
    exact hc
  · simp only [hc]
    show (if pyReplace c oldB newB = c then ((false, e) : Bool × FileEntry)
      else (true, ⟨e.dirs, e.name, some (pyReplace c oldB newB)⟩)).2.content =
      some (pyReplace c oldB newB)
    by_cases hch : pyReplace c oldB newB = c
    · rw [if_pos hch, hch]
      exact hc
    · rw [if_neg hch]

/-- In apply mode, one conflicting-group step transforms the filesystem by the
per-entry map `stepFileMap`. -/
theorem resolveGroupStep_apply_fs (pfx : Str) (idxs : List Nat) (width : Nat)
    (st : RunState) (g : Str × List Nat) (st1 : RunState)
    (hconf : ¬ g.2.length < 2) (hnd : (fsKeys st.fs).Nodup)
    (h : resolveGroupStep pfx idxs width false st g = .ok st1) :
    st1.fs = st.fs.map (stepFileMap idxs width st g) := by
  simp only [resolveGroupStep] at h
  rw [if_neg hconf] at h
  rw [show st.specs.getD (pyMaxIdx st.specs g.2) default = confRec st g from rfl]
    at h
  rw [show nextNumericToken (scopedRecs st.specs idxs) width
      = confNewTok idxs width st from rfl] at h
  rw [show mkFileName (confRec st g).pfx (confNewTok idxs width st)
      (confRec st g).tail = confNewName idxs width st g from rfl] at h
  have hkeyp : ∀ e : FileEntry,
      ((ritfEntry (confRec st g).path.name (confNewName idxs width st g)
        false e).2).dirs = e.dirs ∧
      ((ritfEntry (confRec st g).path.name (confNewName idxs width st g)
        false e).2).name = e.name :=
    fun e => ⟨ritfEntry_dirs _ _ _ e, ritfEntry_name _ _ _ e⟩
  have hp2 : (replaceInTextFiles st.fs (confRec st g).path.name
      (confNewName idxs width st g) false).2
      = st.fs.map (fun e => (ritfEntry (confRec st g).path.name
          (confNewName idxs width st g) false e).2) :=
    replaceInTextFiles_snd _ _ _ _
  have hndp2 : (fsKeys ((replaceInTextFiles st.fs (confRec st g).path.name
      (confNewName idxs width st g) false).2)).Nodup := by
    rw [hp2, fsKeys_map_preserve _ _ hkeyp]
    exact hnd
  split at h
  · exact Except.noConfusion h
  · rename_i q hq
    cases h
    show renameFile q.2 (confRec st g).path (confNewName idxs width st g)
      = st.fs.map (stepFileMap idxs width st g)
    unfold replaceInFile at hq
    cases hf : findFile ((replaceInTextFiles st.fs (confRec st g).path.name
        (confNewName idxs width st g) false).2) (confRec st g).path with
    | none =>
      simp only [hf] at hq
      exact Except.noConfusion hq
    | some e1 =>
      simp only [hf] at hq
      cases hce : e1.content with
      | none =>
        simp only [hce] at hq
        exact Except.noConfusion hq
      | some c1 =>
        simp only [hce] at hq
        have hfmap : (findFile st.fs (confRec st g).path).map
            (fun e => (ritfEntry (confRec st g).path.name
              (confNewName idxs width st g) false e).2) = some e1 := by
          rw [← findFile_map st.fs _ _ hkeyp, ← hp2]
          exact hf
        cases hf0 : findFile st.fs (confRec st g).path with
        | none =>
          rw [hf0] at hfmap
          exact Option.noConfusion hfmap
        | some e0 =>
          rw [hf0] at hfmap
          have he1 : (ritfEntry (confRec st g).path.name
              (confNewName idxs width st g) false e0).2 = e1 :=
            Option.some.inj hfmap
          have huniqmem : ∀ e ∈ st.fs,
              sameKey (confRec st g).path e = true → e = e0 := by
            intro e he hske
            have hfu := findFile_unique st.fs (confRec st g).path e he hske hnd
            rw [hf0] at hfu
            exact (Option.some.inj hfu).symm
          by_cases hch : pyReplace c1
              (mkSpecId (confRec st g).pfx (confRec st g).token)
              (mkSpecId (confRec st g).pfx (confNewTok idxs width st)) = c1
          · rw [if_pos hch] at hq
            cases hq
            show renameFile ((replaceInTextFiles st.fs
                (confRec st g).path.name (confNewName idxs width st g)
                false).2) (confRec st g).path (confNewName idxs width st g)
              = st.fs.map (stepFileMap idxs width st g)
            unfold renameFile
            rw [updateFirst_eq_map _ _ _ hndp2, hp2, List.map_map]
            refine List.map_congr_left ?_
            intro e he
            show (if sameKey (confRec st g).path
                ((ritfEntry (confRec st g).path.name
                  (confNewName idxs width st g) false e).2)
              then { (ritfEntry (confRec st g).path.name
                  (confNewName idxs width st g) false e).2 with
                  name := confNewName idxs width st g }
              else (ritfEntry (confRec st g).path.name
                  (confNewName idxs width st g) false e).2)
              = stepFileMap idxs width st g e
            rw [sameKey_congr (confRec st g).path e _ (hkeyp e).1 (hkeyp e).2]
            unfold stepFileMap
            cases hsk : sameKey (confRec st g).path e with
            | false =>
              rw [if_neg Bool.false_ne_true, if_neg Bool.false_ne_true]
            | true =>
              rw [if_pos rfl, if_pos rfl]
              have he0 : e = e0 := huniqmem e he hsk
              rw [he0, he1]
              have hcontent : e1.content.map (fun c => pyReplace c
                  (mkSpecId (confRec st g).pfx (confRec st g).token)
                  (mkSpecId (confRec st g).pfx (confNewTok idxs width st)))
                  = e1.content := by
                rw [hce]
                show some (pyReplace c1
                  (mkSpecId (confRec st g).pfx (confRec st g).token)
                  (mkSpecId (confRec st g).pfx (confNewTok idxs width st)))
                  = some c1
                rw [hch]
              rw [hcontent]
          · rw [if_neg hch] at hq
            cases hq
            show renameFile (updateFirst ((replaceInTextFiles st.fs
                (confRec st g).path.name (confNewName idxs width st g)
                false).2) (confRec st g).path
                (fun e0 => { e0 with content := some (pyReplace c1
                  (mkSpecId (confRec st g).pfx (confRec st g).token)
                  (mkSpecId (confRec st g).pfx (confNewTok idxs width st))) }))
              (confRec st g).path (confNewName idxs width st g)
              = st.fs.map (stepFileMap idxs width st g)
            have hndu : (fsKeys (updateFirst ((replaceInTextFiles st.fs
                (confRec st g).path.name (confNewName idxs width st g)
                false).2) (confRec st g).path
                (fun e0 => { e0 with content := some (pyReplace c1
                  (mkSpecId (confRec st g).pfx (confRec st g).token)
                  (mkSpecId (confRec st g).pfx (confNewTok idxs width st))) }))).Nodup := by
              rw [updateFirst_eq_map _ _ _ hndp2, fsKeys_map_preserve]
              · exact hndp2
              · intro e
                cases hsk : sameKey (confRec st g).path e with
                | false =>
                  rw [if_neg Bool.false_ne_true]
                  exact ⟨rfl, rfl⟩
                | true =>
                  rw [if_pos rfl]
                  exact ⟨rfl, rfl⟩
            unfold renameFile
            rw [updateFirst_eq_map _ _ _ hndu, updateFirst_eq_map _ _ _ hndp2,
              hp2, List.map_map, List.map_map]
            refine List.map_congr_left ?_
            intro e he
            show (if sameKey (confRec st g).path
                (if sameKey (confRec st g).path
                    ((ritfEntry (confRec st g).path.name
                      (confNewName idxs width st g) false e).2)
                  then { (ritfEntry (confRec st g).path.name
                      (confNewName idxs width st g) false e).2 with
                      content := some (pyReplace c1
                        (mkSpecId (confRec st g).pfx (confRec st g).token)
                        (mkSpecId (confRec st g).pfx (confNewTok idxs width st))) }
                  else (ritfEntry (confRec st g).path.name
                      (confNewName idxs width st g) false e).2)
              then { (if sameKey (confRec st g).path
                    ((ritfEntry (confRec st g).path.name
                      (confNewName idxs width st g) false e).2)
                  then { (ritfEntry (confRec st g).path.name
                      (confNewName idxs width st g) false e).2 with
                      content := some (pyReplace c1
                        (mkSpecId (confRec st g).pfx (confRec st g).token)
                        (mkSpecId (confRec st g).pfx (confNewTok idxs width st))) }
                  else (ritfEntry (confRec st g).path.name
                      (confNewName idxs width st g) false e).2) with
                  name := confNewName idxs width st g }
              else (if sameKey (confRec st g).path
                    ((ritfEntry (confRec st g).path.name
                      (confNewName idxs width st g) false e).2)
                  then { (ritfEntry (confRec st g).path.name
                      (confNewName idxs width st g) false e).2 with
                      content := some (pyReplace c1
                        (mkSpecId (confRec st g).pfx (confRec st g).token)
                        (mkSpecId (confRec st g).pfx (confNewTok idxs width st))) }
                  else (ritfEntry (confRec st g).path.name
                      (confNewName idxs width st g) false e).2))
              = stepFileMap idxs width st g e
            rw [sameKey_congr (confRec st g).path e _ (hkeyp e).1 (hkeyp e).2]
            unfold stepFileMap
            cases hsk : sameKey (confRec st g).path e with
            | false =>
              rw [if_neg Bool.false_ne_true]
              rw [sameKey_congr (confRec st g).path e _ (hkeyp e).1 (hkeyp e).2,
                hsk]
              rw [if_neg Bool.false_ne_true, if_neg Bool.false_ne_true]
            | true =>
              rw [if_pos rfl]
              have he0 : e = e0 := huniqmem e he hsk
              have hkf2 : sameKey (confRec st g).path
                  { (ritfEntry (confRec st g).path.name
                      (confNewName idxs width st g) false e).2 with
                    content := some (pyReplace c1
                      (mkSpecId (confRec st g).pfx (confRec st g).token)
                      (mkSpecId (confRec st g).pfx
                        (confNewTok idxs width st))) } = true := by
                rw [sameKey_congr (confRec st g).path e _
                  (by exact (hkeyp e).1) (by exact (hkeyp e).2)]
                exact hsk
              rw [if_pos hkf2, if_pos rfl]
              rw [he0, he1]
              rw [hce]
              rfl

/-- C6: when a conflict is resolved in apply mode, every occurrence of the old
basename is replaced by the new basename in every scanned decodable text file;
the bare old spec identifier is replaced by the new identifier only inside the
renamed record's own file (which is also renamed); every other file keeps its
name and directory, a file in which the old basename does not occur keeps its
content unchanged even if it mentions the bare old identifier, and undecodable
files are untouched. -/
theorem C6_basename_everywhere_id_only_in_renamed (pfx : Str) (idxs : List Nat)
    (width : Nat) (st : RunState) (g : Str × List Nat) (st1 : RunState)
    (hconf : ¬ g.2.length < 2) (hnd : (fsKeys st.fs).Nodup)
    (h : resolveGroupStep pfx idxs width false st g = .ok st1) :
    st1.fs.length = st.fs.length ∧
    (∀ k, k < st.fs.length →
      sameKey (confRec st g).path (st.fs.getD k default) = false →
      ((st1.fs.getD k default).dirs = (st.fs.getD k default).dirs ∧
       (st1.fs.getD k default).name = (st.fs.getD k default).name) ∧
      (∀ c, (st.fs.getD k default).content = some c →
        (st1.fs.getD k default).content =
          some (if visitedEntry (st.fs.getD k default) &&
                   isTextEntry (st.fs.getD k default)
                then pyReplace c (confRec st g).path.name
                  (confNewName idxs width st g)
                else c)) ∧
      (∀ c, (st.fs.getD k default).content = some c →
        hasOccur (confRec st g).path.name c = false →
        (st1.fs.getD k default).content = some c) ∧
      ((st.fs.getD k default).content = none →
        st1.fs.getD k default = st.fs.getD k default)) ∧
    (∀ k, k < st.fs.length →
      sameKey (confRec st g).path (st.fs.getD k default) = true →
      (st1.fs.getD k default).dirs = (st.fs.getD k default).dirs ∧
      (st1.fs.getD k default).name = confNewName idxs width st g ∧
      (∀ c, (st.fs.getD k default).content = some c →
        (st1.fs.getD k default).content =
          some (pyReplace
            (if visitedEntry (st.fs.getD k default) &&
                isTextEntry (st.fs.getD k default)
             then pyReplace c (confRec st g).path.name
               (confNewName idxs width st g)
             else c)
            (mkSpecId (confRec st g).pfx (confRec st g).token)
            (mkSpecId (confRec st g).pfx (confNewTok idxs width st))))) := by
  have hmap := resolveGroupStep_apply_fs pfx idxs width st g st1 hconf hnd h
  have hget : ∀ k, k < st.fs.length →
      st1.fs.getD k default = stepFileMap idxs width st g (st.fs.getD k default) := by
    intro k hk
    rw [hmap]
    exact getD_map_lt st.fs _ k hk
  refine ⟨by rw [hmap]; exact List.length_map st.fs _, ?_, ?_⟩
  · intro k hk hsk
    rw [hget k hk]
    unfold stepFileMap
    rw [if_neg (by rw [hsk]; exact Bool.false_ne_true)]
    refine ⟨⟨ritfEntry_dirs _ _ _ _, ritfEntry_name _ _ _ _⟩, ?_, ?_, ?_⟩
    · intro c hc
      exact ritfEntry_content_apply _ _ _ c hc
    · intro c hc hno
      rw [ritfEntry_no_occur _ _ false _ c hc hno]
      exact hc
    · intro hcn
      rw [ritfEntry_undecodable _ _ false _ hcn]
  · intro k hk hsk
    rw [hget k hk]
    unfold stepFileMap
    rw [if_pos hsk]
    refine ⟨ritfEntry_dirs _ _ _ _, rfl, ?_⟩
    intro c hc
    show ((ritfEntry (confRec st g).path.name (confNewName idxs width st g)
      false (st.fs.getD k default)).2).content.map
        (fun c => pyReplace c
          (mkSpecId (confRec st g).pfx (confRec st g).token)
          (mkSpecId (confRec st g).pfx (confNewTok idxs width st))) = _
    rw [ritfEntry_content_apply _ _ _ c hc]
    rfl

/-! ## Claim C1: preview/apply output parity -/

/-- The spec-side comparison device: identify the two mode labels of the
summary line, leaving every other line unchanged. -/
def stripModeLabel : OutLine → OutLine
  | OutLine.summaryResolved n _ => OutLine.summaryResolved n false
  | l => l

theorem resolveGroupStep_skip (pfx : Str) (idxs : List Nat) (width : Nat)
    (dryRun : Bool) (st : RunState) (g : Str × List Nat)
    (h : g.2.length < 2) : resolveGroupStep pfx idxs width dryRun st g = .ok st := by
  simp only [resolveGroupStep]
  rw [if_pos h]

theorem resolveGroups_skipFront (pfx : Str) (idxs : List Nat) (width : Nat)
    (dryRun : Bool) :
    ∀ (l1 rest : List (Str × List Nat)) (st : RunState),
      (∀ x ∈ l1, x.2.length < 2) →
      resolveGroups pfx idxs width dryRun (l1 ++ rest) st =
        resolveGroups pfx idxs width dryRun rest st := by
  intro l1
  induction l1 with
  | nil => intro rest st _; rfl
  | cons x l1 ih =>
    intro rest st hskip
    rw [List.cons_append]
    show (match resolveGroupStep pfx idxs width dryRun st x with
          | Except.error e => (Except.error e : Except Unit RunState)
          | Except.ok st1 => resolveGroups pfx idxs width dryRun (l1 ++ rest) st1)
        = _
    rw [resolveGroupStep_skip pfx idxs width dryRun st x
      (hskip x (List.mem_cons_self x l1))]
    exact ih rest st (fun y hy => hskip y (List.mem_cons_of_mem x hy))

theorem foldl_recordStep_skip_all (idxs : List Nat) (width : Nat) :
    ∀ (l : List (Str × List Nat)) (st : RecState),
      (∀ x ∈ l, x.2.length < 2) →
      l.foldl (recordStep idxs width) st = st := by
  intro l
  induction l with
  | nil => intro st _; rfl
  | cons x l ih =>
    intro st hskip
    rw [List.foldl_cons,
      recordStep_skip idxs width st x (hskip x (List.mem_cons_self x l))]
    exact ih st (fun y hy => hskip y (List.mem_cons_of_mem x hy))

/-- A list whose `p`-filter has at most one element is either `p`-free or
splits around a single `p`-element. -/
theorem single_mem_decomp {α : Type} (p : α → Bool) :
    ∀ (l : List α), (l.filter p).length ≤ 1 →
      (∀ x ∈ l, p x = false) ∨
      ∃ l1 x l2, l = l1 ++ x :: l2 ∧ (∀ y ∈ l1, p y = false) ∧ p x = true ∧
        (∀ y ∈ l2, p y = false) := by
  intro l
  induction l with
  | nil =>
    intro _
    exact Or.inl (fun x hx => absurd hx (List.not_mem_nil x))
  | cons x l ih =>
    intro hlen
    rw [List.filter_cons] at hlen
    cases hx : p x with
    | true =>
      rw [if_pos (by rw [hx])] at hlen
      rw [List.length_cons] at hlen
      have hnil : l.filter p = [] := List.eq_nil_of_length_eq_zero (by omega)
      refine Or.inr ⟨[], x, l, rfl, fun y hy => absurd hy (List.not_mem_nil y),
        hx, ?_⟩
      intro y hy
      cases hpy : p y with
      | false => rfl
      | true =>
        exfalso
        have : y ∈ l.filter p := List.mem_filter.mpr ⟨hy, hpy⟩
        rw [hnil] at this
        exact List.not_mem_nil y this
    | false =>
      rw [if_neg (by rw [hx]; exact Bool.false_ne_true)] at hlen
      rcases ih hlen with hall | ⟨l1, z, l2, heq, h1, h2, h3⟩
      · refine Or.inl ?_
        intro y hy
        rcases List.mem_cons.mp hy with rfl | hy'
        · exact hx
        · exact hall y hy'
      · refine Or.inr ⟨x :: l1, z, l2, by rw [heq, List.cons_append], ?_, h2, h3⟩
        intro y hy
        rcases List.mem_cons.mp hy with rfl | hy'
        · exact hx
        · exact h1 y hy'

/-- Preview and apply agree on the printed lines and the record effects of one
conflicting-group step, provided the newest record's file does not mention its
own basename. -/
theorem resolveGroupStep_parity (pfx : Str) (idxs : List Nat) (width : Nat)
    (ls : List OutLine) (f0 : FS) (sp : List SpecFile) (cnt : Nat)
    (trc : List TraceEnt) (g : Str × List Nat) (stP stA : RunState)
    (hglen : ¬ g.2.length < 2)
    (hP : resolveGroupStep pfx idxs width true ⟨ls, f0, sp, cnt, trc⟩ g = .ok stP)
    (hA : resolveGroupStep pfx idxs width false ⟨ls, f0, sp, cnt, trc⟩ g = .ok stA)
    (hno : ∀ en ∈ f0, sameKey (sp.getD (pyMaxIdx sp g.2) default).path en = true →
      ∀ c, en.content = some c →
        hasOccur (sp.getD (pyMaxIdx sp g.2) default).path.name c = false) :
    stP.lines = stA.lines ∧ stP.count = stA.count ∧ stP.specs = stA.specs ∧
    stP.trace = stA.trace := by
  simp only [resolveGroupStep] at hP hA
  rw [if_neg hglen] at hP hA
  rw [replaceInTextFiles_dry] at hP
  cases hfind : findFile f0 (sp.getD (pyMaxIdx sp g.2) default).path with
  | none =>
    rw [show replaceInFile f0 (sp.getD (pyMaxIdx sp g.2) default).path
        (mkSpecId (sp.getD (pyMaxIdx sp g.2) default).pfx
          (sp.getD (pyMaxIdx sp g.2) default).token)
        (mkSpecId (sp.getD (pyMaxIdx sp g.2) default).pfx
          (nextNumericToken (scopedRecs sp idxs) width)) true = .error ()
      from by unfold replaceInFile; simp only [hfind]] at hP
    exact Except.noConfusion hP
  | some efound =>
    cases hcont : efound.content with
    | none =>
      rw [show replaceInFile f0 (sp.getD (pyMaxIdx sp g.2) default).path
          (mkSpecId (sp.getD (pyMaxIdx sp g.2) default).pfx
            (sp.getD (pyMaxIdx sp g.2) default).token)
          (mkSpecId (sp.getD (pyMaxIdx sp g.2) default).pfx
            (nextNumericToken (scopedRecs sp idxs) width)) true = .error ()
        from by unfold replaceInFile; simp only [hfind, hcont]] at hP
      exact Except.noConfusion hP
    | some c =>
      have hmem : efound ∈ f0 := List.mem_of_find?_eq_some hfind
      have hkey : sameKey (sp.getD (pyMaxIdx sp g.2) default).path efound
          = true := List.find?_some hfind
      have hnoc := hno efound hmem hkey c hcont
      have hkeyp : ∀ e : FileEntry,
          ((ritfEntry (sp.getD (pyMaxIdx sp g.2) default).path.name
            (mkFileName (sp.getD (pyMaxIdx sp g.2) default).pfx
              (nextNumericToken (scopedRecs sp idxs) width)
              (sp.getD (pyMaxIdx sp g.2) default).tail) false e).2).dirs
            = e.dirs ∧
          ((ritfEntry (sp.getD (pyMaxIdx sp g.2) default).path.name
            (mkFileName (sp.getD (pyMaxIdx sp g.2) default).pfx
              (nextNumericToken (scopedRecs sp idxs) width)
              (sp.getD (pyMaxIdx sp g.2) default).tail) false e).2).name
            = e.name :=
        fun e => ⟨ritfEntry_dirs _ _ _ e, ritfEntry_name _ _ _ e⟩
      have hfindA : findFile ((replaceInTextFiles f0
          (sp.getD (pyMaxIdx sp g.2) default).path.name
          (mkFileName (sp.getD (pyMaxIdx sp g.2) default).pfx
            (nextNumericToken (scopedRecs sp idxs) width)
            (sp.getD (pyMaxIdx sp g.2) default).tail) false).2)
          (sp.getD (pyMaxIdx sp g.2) default).path = some efound := by
        rw [replaceInTextFiles_snd, findFile_map f0 _ _ hkeyp, hfind]
        have hred := ritfEntry_no_occur
          (sp.getD (pyMaxIdx sp g.2) default).path.name
          (mkFileName (sp.getD (pyMaxIdx sp g.2) default).pfx
            (nextNumericToken (scopedRecs sp idxs) width)
            (sp.getD (pyMaxIdx sp g.2) default).tail) false efound c hcont hnoc
        show some (ritfEntry (sp.getD (pyMaxIdx sp g.2) default).path.name
          (mkFileName (sp.getD (pyMaxIdx sp g.2) default).pfx
            (nextNumericToken (scopedRecs sp idxs) width)
            (sp.getD (pyMaxIdx sp g.2) default).tail) false efound).2
          = some efound
        rw [hred]
      by_cases hch : pyReplace c
          (mkSpecId (sp.getD (pyMaxIdx sp g.2) default).pfx
            (sp.getD (pyMaxIdx sp g.2) default).token)
          (mkSpecId (sp.getD (pyMaxIdx sp g.2) default).pfx
            (nextNumericToken (scopedRecs sp idxs) width)) = c
      · have hrwP : replaceInFile f0 (sp.getD (pyMaxIdx sp g.2) default).path
            (mkSpecId (sp.getD (pyMaxIdx sp g.2) default).pfx
              (sp.getD (pyMaxIdx sp g.2) default).token)
            (mkSpecId (sp.getD (pyMaxIdx sp g.2) default).pfx
              (nextNumericToken (scopedRecs sp idxs) width)) true
            = .ok (false, f0) := by
          unfold replaceInFile
          simp only [hfind, hcont]
          rw [if_pos hch]
        rw [hrwP] at hP
        have hrwA : replaceInFile ((replaceInTextFiles f0
            (sp.getD (pyMaxIdx sp g.2) default).path.name
            (mkFileName (sp.getD (pyMaxIdx sp g.2) default).pfx
              (nextNumericToken (scopedRecs sp idxs) width)
              (sp.getD (pyMaxIdx sp g.2) default).tail) false).2)
            (sp.getD (pyMaxIdx sp g.2) default).path
            (mkSpecId (sp.getD (pyMaxIdx sp g.2) default).pfx
              (sp.getD (pyMaxIdx sp g.2) default).token)
            (mkSpecId (sp.getD (pyMaxIdx sp g.2) default).pfx
              (nextNumericToken (scopedRecs sp idxs) width)) false
            = .ok (false, (replaceInTextFiles f0
              (sp.getD (pyMaxIdx sp g.2) default).path.name
              (mkFileName (sp.getD (pyMaxIdx sp g.2) default).pfx
                (nextNumericToken (scopedRecs sp idxs) width)
                (sp.getD (pyMaxIdx sp g.2) default).tail) false).2) := by
          unfold replaceInFile
          simp only [hfindA, hcont]
          rw [if_pos hch]
        rw [hrwA] at hA
        have hPv := Except.ok.inj hP
        have hAv := Except.ok.inj hA
        rw [← hPv, ← hAv]
        refine ⟨?_, rfl, rfl, rfl⟩
        show ls ++ [OutLine.conflict pfx g.1
            (sp.getD (pyMaxIdx sp g.2) default).path.name
            (mkFileName (sp.getD (pyMaxIdx sp g.2) default).pfx
              (nextNumericToken (scopedRecs sp idxs) width)
              (sp.getD (pyMaxIdx sp g.2) default).tail),
          OutLine.refCount (replaceInTextFiles f0
            (sp.getD (pyMaxIdx sp g.2) default).path.name
            (mkFileName (sp.getD (pyMaxIdx sp g.2) default).pfx
              (nextNumericToken (scopedRecs sp idxs) width)
              (sp.getD (pyMaxIdx sp g.2) default).tail) true).1] ++ []
          = ls ++ [OutLine.conflict pfx g.1
            (sp.getD (pyMaxIdx sp g.2) default).path.name
            (mkFileName (sp.getD (pyMaxIdx sp g.2) default).pfx
              (nextNumericToken (scopedRecs sp idxs) width)
              (sp.getD (pyMaxIdx sp g.2) default).tail),
          OutLine.refCount (replaceInTextFiles f0
            (sp.getD (pyMaxIdx sp g.2) default).path.name
            (mkFileName (sp.getD (pyMaxIdx sp g.2) default).pfx
              (nextNumericToken (scopedRecs sp idxs) width)
              (sp.getD (pyMaxIdx sp g.2) default).tail) false).1] ++ []
        rw [replaceInTextFiles_count_mode f0 _ _ true false]
      · have hrwP : replaceInFile f0 (sp.getD (pyMaxIdx sp g.2) default).path
            (mkSpecId (sp.getD (pyMaxIdx sp g.2) default).pfx
              (sp.getD (pyMaxIdx sp g.2) default).token)
            (mkSpecId (sp.getD (pyMaxIdx sp g.2) default).pfx
              (nextNumericToken (scopedRecs sp idxs) width)) true
            = .ok (true, f0) := by
          unfold replaceInFile
          simp only [hfind, hcont]
          rw [if_neg hch]
          rfl
        rw [hrwP] at hP
        have hrwA : replaceInFile ((replaceInTextFiles f0
            (sp.getD (pyMaxIdx sp g.2) default).path.name
            (mkFileName (sp.getD (pyMaxIdx sp g.2) default).pfx
              (nextNumericToken (scopedRecs sp idxs) width)
              (sp.getD (pyMaxIdx sp g.2) default).tail) false).2)
            (sp.getD (pyMaxIdx sp g.2) default).path
            (mkSpecId (sp.getD (pyMaxIdx sp g.2) default).pfx
              (sp.getD (pyMaxIdx sp g.2) default).token)
            (mkSpecId (sp.getD (pyMaxIdx sp g.2) default).pfx
              (nextNumericToken (scopedRecs sp idxs) width)) false
            = .ok (true, updateFirst ((replaceInTextFiles f0
              (sp.getD (pyMaxIdx sp g.2) default).path.name
              (mkFileName (sp.getD (pyMaxIdx sp g.2) default).pfx
                (nextNumericToken (scopedRecs sp idxs) width)
                (sp.getD (pyMaxIdx sp g.2) default).tail) false).2)
              (sp.getD (pyMaxIdx sp g.2) default).path
              (fun e0 => { e0 with content := some (pyReplace c
                (mkSpecId (sp.getD (pyMaxIdx sp g.2) default).pfx
                  (sp.getD (pyMaxIdx sp g.2) default).token)
                (mkSpecId (sp.getD (pyMaxIdx sp g.2) default).pfx
                  (nextNumericToken (scopedRecs sp idxs) width))) })) := by
          unfold replaceInFile
          simp only [hfindA, hcont]
          rw [if_neg hch]
          rfl
        rw [hrwA] at hA
        have hPv := Except.ok.inj hP
        have hAv := Except.ok.inj hA
        rw [← hPv, ← hAv]
        refine ⟨?_, rfl, rfl, rfl⟩
        show ls ++ [OutLine.conflict pfx g.1
            (sp.getD (pyMaxIdx sp g.2) default).path.name
            (mkFileName (sp.getD (pyMaxIdx sp g.2) default).pfx
              (nextNumericToken (scopedRecs sp idxs) width)
              (sp.getD (pyMaxIdx sp g.2) default).tail),
          OutLine.refCount (replaceInTextFiles f0
            (sp.getD (pyMaxIdx sp g.2) default).path.name
            (mkFileName (sp.getD (pyMaxIdx sp g.2) default).pfx
              (nextNumericToken (scopedRecs sp idxs) width)
              (sp.getD (pyMaxIdx sp g.2) default).tail) true).1] ++
          [OutLine.specIdLine
            (mkSpecId (sp.getD (pyMaxIdx sp g.2) default).pfx
              (sp.getD (pyMaxIdx sp g.2) default).token)
            (mkSpecId (sp.getD (pyMaxIdx sp g.2) default).pfx
              (nextNumericToken (scopedRecs sp idxs) width))]
          = ls ++ [OutLine.conflict pfx g.1
            (sp.getD (pyMaxIdx sp g.2) default).path.name
            (mkFileName (sp.getD (pyMaxIdx sp g.2) default).pfx
              (nextNumericToken (scopedRecs sp idxs) width)
              (sp.getD (pyMaxIdx sp g.2) default).tail),
          OutLine.refCount (replaceInTextFiles f0
            (sp.getD (pyMaxIdx sp g.2) default).path.name
            (mkFileName (sp.getD (pyMaxIdx sp g.2) default).pfx
              (nextNumericToken (scopedRecs sp idxs) width)
              (sp.getD (pyMaxIdx sp g.2) default).tail) false).1] ++
          [OutLine.specIdLine
            (mkSpecId (sp.getD (pyMaxIdx sp g.2) default).pfx
              (sp.getD (pyMaxIdx sp g.2) default).token)
            (mkSpecId (sp.getD (pyMaxIdx sp g.2) default).pfx
              (nextNumericToken (scopedRecs sp idxs) width))]
        rw [replaceInTextFiles_count_mode f0 _ _ true false]

theorem resolveGroups_skip_all (pfx : Str) (idxs : List Nat) (width : Nat)
    (dryRun : Bool) (l : List (Str × List Nat)) (st : RunState)
    (h : ∀ x ∈ l, x.2.length < 2) :
    resolveGroups pfx idxs width dryRun l st = .ok st := by
  have hpre := resolveGroups_skipFront pfx idxs width dryRun l [] st h
  rw [List.append_nil] at hpre
  rw [hpre]
  rfl

/-- Occurrence test lifted to optionally-decodable content. -/
def hasOccurOpt (old : Str) : Option Str → Bool
  | none => false
  | some c => hasOccur old c

/-- Line-level parity of a preview and an apply run over one family, provided
at most one conflict is resolved and the renumbered record's own file does not
mention its own basename. -/
theorem resolveConflictsForPrefix_parity (fs : FS) (specs : List SpecFile)
    (pfx : Str) (stP stA : RunState)
    (hP : resolveConflictsForPrefix fs specs pfx true = .ok stP)
    (hA : resolveConflictsForPrefix fs specs pfx false = .ok stA)
    (hone : (resolveRecordsOnly specs pfx).count ≤ 1)
    (hself : ∀ e ∈ (resolveRecordsOnly specs pfx).trace,
      ∀ en ∈ fs, sameKey (specs.getD e.idx default).path en = true →
        hasOccurOpt (specs.getD e.idx default).path.name en.content = false) :
    stP.lines = stA.lines ∧ stP.count = stA.count := by
  obtain ⟨tr, h1, h2, h3, h4, h5, h6, h7, h8, h9⟩ :=
    trace_foldl (scopedIdxOf specs pfx)
      (widthOf (scopedRecs specs (scopedIdxOf specs pfx))) pfx
      (sortGroups (buildGroups specs (scopedIdxOf specs pfx)))
      { specs := specs, count := 0, trace := [] }
      (initial_groupsWF specs pfx) (idxFam_scopedIdxOf specs pfx)
  have hcnt : (resolveRecordsOnly specs pfx).count =
      ((sortGroups (buildGroups specs (scopedIdxOf specs pfx))).filter
        (fun g => decide (2 ≤ g.2.length))).length := by
    rw [resolveRecordsOnly_eq, h2]
    show 0 + _ = _
    omega
  rw [hcnt] at hone
  rcases single_mem_decomp (fun x : Str × List Nat => decide (2 ≤ x.2.length))
      (sortGroups (buildGroups specs (scopedIdxOf specs pfx))) hone with
    hall | ⟨l1, g, l2, hgs, hl1, hg, hl2⟩
  · have hskip : ∀ x ∈ sortGroups (buildGroups specs (scopedIdxOf specs pfx)),
        x.2.length < 2 := by
      intro x hx
      have hfx := hall x hx
      rw [decide_eq_false_iff_not] at hfx
      omega
    have hrunP : resolveConflictsForPrefix fs specs pfx true =
        .ok { lines := [], fs := fs, specs := specs, count := 0, trace := [] } :=
      resolveGroups_skip_all pfx _ _ true _ _ hskip
    have hrunA : resolveConflictsForPrefix fs specs pfx false =
        .ok { lines := [], fs := fs, specs := specs, count := 0, trace := [] } :=
      resolveGroups_skip_all pfx _ _ false _ _ hskip
    have hPP : (⟨[], fs, specs, 0, []⟩ : RunState) = stP :=
      Except.ok.inj (hrunP.symm.trans hP)
    have hAA : (⟨[], fs, specs, 0, []⟩ : RunState) = stA :=
      Except.ok.inj (hrunA.symm.trans hA)
    rw [← hPP, ← hAA]
    exact ⟨rfl, rfl⟩
  · have hl1len : ∀ x ∈ l1, x.2.length < 2 := by
      intro x hx
      have hfx := hl1 x hx
      rw [decide_eq_false_iff_not] at hfx
      omega
    have hl2len : ∀ x ∈ l2, x.2.length < 2 := by
      intro x hx
      have hfx := hl2 x hx
      rw [decide_eq_true_eq] at hg
      have hfx2 := hfx
      rw [decide_eq_false_iff_not] at hfx2
      omega
    have hglen : ¬ g.2.length < 2 := by
      rw [decide_eq_true_eq] at hg
      omega
    have hrun : ∀ (d : Bool) (stX : RunState),
        resolveConflictsForPrefix fs specs pfx d = .ok stX →
        resolveGroupStep pfx (scopedIdxOf specs pfx)
          (widthOf (scopedRecs specs (scopedIdxOf specs pfx))) d
          { lines := [], fs := fs, specs := specs, count := 0, trace := [] } g
          = .ok stX := by
      intro d stX hX
      have hXeq : resolveConflictsForPrefix fs specs pfx d =
          resolveGroups pfx (scopedIdxOf specs pfx)
            (widthOf (scopedRecs specs (scopedIdxOf specs pfx))) d
            (l1 ++ g :: l2)
            { lines := [], fs := fs, specs := specs, count := 0, trace := [] } := by
        show resolveGroups _ _ _ d
          (sortGroups (buildGroups specs (scopedIdxOf specs pfx))) _ = _
        rw [hgs]
      rw [hXeq, resolveGroups_skipFront pfx _ _ d l1 (g :: l2) _ hl1len] at hX
      unfold resolveGroups at hX
      cases hstep : resolveGroupStep pfx (scopedIdxOf specs pfx)
          (widthOf (scopedRecs specs (scopedIdxOf specs pfx))) d
          { lines := [], fs := fs, specs := specs, count := 0, trace := [] } g with
      | error e =>
        simp only [hstep] at hX
        exact hX
      | ok st1 =>
        simp only [hstep] at hX
        rw [resolveGroups_skip_all pfx _ _ d l2 st1 hl2len] at hX
        exact hX
    have hstepP := hrun true stP hP
    have hstepA := hrun false stA hA
    have htrace : (resolveRecordsOnly specs pfx).trace =
        [⟨g.1, pyMaxIdx specs g.2,
          stepTok (scopedIdxOf specs pfx)
            (widthOf (scopedRecs specs (scopedIdxOf specs pfx)))
            { specs := specs, count := 0, trace := [] },
          mkFileName (specs.getD (pyMaxIdx specs g.2) default).pfx
            (stepTok (scopedIdxOf specs pfx)
              (widthOf (scopedRecs specs (scopedIdxOf specs pfx)))
              { specs := specs, count := 0, trace := [] })
            (specs.getD (pyMaxIdx specs g.2) default).tail⟩] := by
      rw [resolveRecordsOnly_eq, hgs, List.foldl_append,
        foldl_recordStep_skip_all _ _ l1 _ hl1len, List.foldl_cons,
        recordStep_conflict _ _ _ g hglen,
        foldl_recordStep_skip_all _ _ l2 _ hl2len]
      rfl
    have hno : ∀ en ∈ fs,
        sameKey (specs.getD (pyMaxIdx specs g.2) default).path en = true →
        ∀ c, en.content = some c →
          hasOccur (specs.getD (pyMaxIdx specs g.2) default).path.name c
            = false := by
      intro en hen hk c hc
      have hres := hself _ (by rw [htrace]; exact List.mem_cons_self _ _)
        en hen hk
      rw [hc] at hres
      exact hres
    have hpar := resolveGroupStep_parity pfx (scopedIdxOf specs pfx)
      (widthOf (scopedRecs specs (scopedIdxOf specs pfx)))
      [] fs specs 0 [] g stP stA hglen hstepP hstepA hno
    exact ⟨hpar.1, hpar.2.1⟩

/-- C1 (amended): for a fixed repository snapshot, a completed preview run and
a completed apply run of one family print identical lines up to the summary
line's mode label, PROVIDED at most one conflict is resolved and the
renumbered record's own file does not mention its own basename; without these
side conditions the parity fails (see the counterexample), because the apply
mode rewrites the file on disk before re-reading it for the spec-id pass. -/
theorem C1_preview_apply_parity (fs : FS) (specs : List SpecFile) (pfx : Str)
    (outP outA : List OutLine × FS)
    (hP : runFamily fs specs pfx true = .ok outP)
    (hA : runFamily fs specs pfx false = .ok outA)
    (hone : (resolveRecordsOnly specs pfx).count ≤ 1)
    (hself : ∀ e ∈ (resolveRecordsOnly specs pfx).trace,
      ∀ en ∈ fs, sameKey (specs.getD e.idx default).path en = true →
        hasOccurOpt (specs.getD e.idx default).path.name en.content = false) :
    outP.1.map stripModeLabel = outA.1.map stripModeLabel := by
  unfold runFamily at hP hA
  split at hP
  · exact Except.noConfusion hP
  · rename_i stP hrP
    split at hA
    · exact Except.noConfusion hA
    · rename_i stA hrA
      cases hP
      cases hA
      obtain ⟨hl, hc⟩ := resolveConflictsForPrefix_parity fs specs pfx stP stA
        hrP hrA hone hself
      show (stP.lines ++ [if stP.count = 0 then OutLine.summaryNone
        else OutLine.summaryResolved stP.count true]).map stripModeLabel
        = (stA.lines ++ [if stA.count = 0 then OutLine.summaryNone
          else OutLine.summaryResolved stA.count false]).map stripModeLabel
      rw [List.map_append, List.map_append, hl, hc]
      by_cases h0 : stA.count = 0
      · rw [if_pos h0, if_pos h0]
      · rw [if_neg h0, if_neg h0]
        rfl

/-! ## Concrete scenarios -/

def exOk (r : Except Unit RunState) : RunState :=
  match r with
  | .ok st => st
  | .error _ => default

def exRes (r : Except Unit (List OutLine × FS × Nat)) :
    List OutLine × FS × Nat :=
  match r with
  | .ok v => v
  | .error _ => ([], [], 0)

def exFam (r : Except Unit (List OutLine × FS)) : List OutLine × FS :=
  match r with
  | .ok v => v
  | .error _ => ([], [])

def witDir : List Str := [".ai".toList, "specs".toList]

def witF1 : FileEntry :=
  { dirs := witDir, name := "SPEC-001-alpha.md".toList,
    content := some "alpha body SPEC-001 end".toList }

def witF2 : FileEntry :=
  { dirs := witDir, name := "SPEC-001-beta.md".toList,
    content := some "beta body SPEC-001 end".toList }

def witF3 : FileEntry :=
  { dirs := ["docs".toList], name := "README.md".toList,
    content := some "see SPEC-001-beta.md and SPEC-001 here".toList }

def witFs : FS := [witF1, witF2, witF3]

def witMt : Pth → Nat :=
  fun p => if p.name = "SPEC-001-beta.md".toList then 5 else 1

def witSpecs : List SpecFile := iterSpecFiles witFs witMt witDir

def witDirsExisting : List (List Str) := [witDir]

def witStP : RunState :=
  exOk (resolveConflictsForPrefix witFs witSpecs ossTag true)

def witStA : RunState :=
  exOk (resolveConflictsForPrefix witFs witSpecs ossTag false)

def witOutP : List OutLine × FS := exFam (runFamily witFs witSpecs ossTag true)

def witOutA : List OutLine × FS := exFam (runFamily witFs witSpecs ossTag false)

def witRunP : List OutLine × FS × Nat :=
  exRes (mainModel witDirsExisting witFs witMt false)

def witRunNoRoots : List OutLine × FS × Nat :=
  exRes (mainModel [] witFs witMt false)

def witStep : RunState :=
  exOk (resolveGroupStep ossTag [0, 1] 3 false
    ⟨[], witFs, witSpecs, 0, []⟩ ("001".toList, [0, 1]))

def cexF1 : FileEntry :=
  { dirs := witDir, name := "SPEC-001-alpha.md".toList,
    content := some "alpha body".toList }

def cexF2 : FileEntry :=
  { dirs := witDir, name := "SPEC-001-beta.md".toList,
    content := some "see SPEC-001-beta.md".toList }

def cexFs : FS := [cexF1, cexF2]

def cexSpecs : List SpecFile := iterSpecFiles cexFs witMt witDir

def cexOutP : List OutLine × FS := exFam (runFamily cexFs cexSpecs ossTag true)

def cexOutA : List OutLine × FS := exFam (runFamily cexFs cexSpecs ossTag false)

def cexDated : SpecFile :=
  { path := { dirs := witDir, name := "SPEC-001-2024-01-05-intro.md".toList },
    pfx := ossTag, token := "001".toList,
    tail := "2024-01-05-intro".toList, mtime := 1 }

def cexUndated : SpecFile :=
  { path := { dirs := witDir, name := "SPEC-001-foo.md".toList },
    pfx := ossTag, token := "001".toList, tail := "foo".toList, mtime := 2 }

def c10File : FileEntry :=
  { dirs := witDir, name := "SPEC-001-beta.md".toList, content := none }

def c10Fs : FS := [witF1, c10File]

def c10Specs : List SpecFile := iterSpecFiles c10Fs witMt witDir

def witStInit : RunState := ⟨[], witFs, witSpecs, 0, []⟩

def witG : Str × List Nat := ("001".toList, [0, 1])

def c10St : RunState := ⟨[], c10Fs, c10Specs, 0, []⟩

def c10G : Str × List Nat := ("001".toList, [0, 1])

/-- C1 counterexample: on a registry whose renumbered record's file mentions
its own basename, the preview run prints an in-file spec-id line that the
apply run does not print, so the outputs differ beyond the summary label. -/
theorem C1_counterexample :
    runFamily cexFs cexSpecs ossTag true = .ok cexOutP ∧
    runFamily cexFs cexSpecs ossTag false = .ok cexOutA ∧
    cexOutP.1.map stripModeLabel ≠ cexOutA.1.map stripModeLabel := by
  refine ⟨rfl, rfl, ?_⟩
  decide

theorem C1_preview_apply_parity_witness :
    witOutP.1.map stripModeLabel = witOutA.1.map stripModeLabel :=
  C1_preview_apply_parity witFs witSpecs ossTag witOutP witOutA rfl rfl
    (by decide) (by decide)

theorem C2_fresh_tokens_distinct_witness :
    List.Pairwise (fun a b => a.newTok ≠ b.newTok) witStA.trace ∧
    ∀ e ∈ witStA.trace, ∀ s ∈ witSpecs, s.pfx = ossTag →
      s.token ≠ e.newTok :=
  C2_fresh_tokens_distinct witFs witSpecs ossTag witStA rfl

/-- C3 counterexample: with the dated record older by mtime, the dated record
is still the one renumbered (its token changes), while the undated, newer
record keeps its token — the opposite of the spec's testable property. -/
theorem C3_counterexample :
    (resolveRecordsOnly [cexDated, cexUndated] ossTag).trace.map
      (fun e => e.idx) = [0] ∧
    ((resolveRecordsOnly [cexDated, cexUndated] ossTag).specs.getD 0
      default).token ≠ cexDated.token ∧
    (resolveRecordsOnly [cexDated, cexUndated] ossTag).specs.getD 1 default
      = cexUndated := by
  refine ⟨?_, ?_, ?_⟩ <;> decide

theorem C3_dated_record_is_renumbered_witness :
    (resolveRecordsOnly [cexUndated, cexDated] ossTag).trace.map
      (fun e => e.idx) = [1] ∧
    (resolveRecordsOnly [cexUndated, cexDated] ossTag).specs.getD 0 default
      = cexUndated ∧
    ((resolveRecordsOnly [cexUndated, cexDated] ossTag).specs.getD 1
      default).token ≠ cexDated.token ∧
    (resolveRecordsOnly [cexUndated, cexDated] ossTag).count = 1 :=
  C3_dated_record_is_renumbered cexUndated cexDated ossTag rfl rfl rfl rfl
    (by decide)

theorem C6_basename_everywhere_id_only_in_renamed_witness :
    witStep.fs.length = witStInit.fs.length ∧
    (∀ k, k < witStInit.fs.length →
      sameKey (confRec witStInit witG).path (witStInit.fs.getD k default)
        = false →
      ((witStep.fs.getD k default).dirs
          = (witStInit.fs.getD k default).dirs ∧
       (witStep.fs.getD k default).name
          = (witStInit.fs.getD k default).name) ∧
      (∀ c, (witStInit.fs.getD k default).content = some c →
        (witStep.fs.getD k default).content =
          some (if visitedEntry (witStInit.fs.getD k default) &&
                   isTextEntry (witStInit.fs.getD k default)
                then pyReplace c (confRec witStInit witG).path.name
                  (confNewName [0, 1] 3 witStInit witG)
                else c)) ∧
      (∀ c, (witStInit.fs.getD k default).content = some c →
        hasOccur (confRec witStInit witG).path.name c = false →
        (witStep.fs.getD k default).content = some c) ∧
      ((witStInit.fs.getD k default).content = none →
        witStep.fs.getD k default = witStInit.fs.getD k default)) ∧
    (∀ k, k < witStInit.fs.length →
      sameKey (confRec witStInit witG).path (witStInit.fs.getD k default)
        = true →
      (witStep.fs.getD k default).dirs = (witStInit.fs.getD k default).dirs ∧
      (witStep.fs.getD k default).name = confNewName [0, 1] 3 witStInit witG ∧
      (∀ c, (witStInit.fs.getD k default).content = some c →
        (witStep.fs.getD k default).content =
          some (pyReplace
            (if visitedEntry (witStInit.fs.getD k default) &&
                isTextEntry (witStInit.fs.getD k default)
             then pyReplace c (confRec witStInit witG).path.name
               (confNewName [0, 1] 3 witStInit witG)
             else c)
            (mkSpecId (confRec witStInit witG).pfx
              (confRec witStInit witG).token)
            (mkSpecId (confRec witStInit witG).pfx
              (confNewTok [0, 1] 3 witStInit))))) :=
  C6_basename_everywhere_id_only_in_renamed ossTag [0, 1] 3 witStInit witG
    witStep (by decide) (by decide) rfl

theorem C7_preview_preserves_fs_witness : witRunP.2.1 = witFs :=
  C7_preview_preserves_fs witDirsExisting witFs witMt witRunP rfl

theorem C8_exit_codes_witness :
    (witRunNoRoots.2.2 = 1 ↔ findSpecsRoot [] = []) ∧
    (witRunNoRoots.2.2 = 0 ∨ witRunNoRoots.2.2 = 1) ∧
    (findSpecsRoot [] = [] →
      witRunNoRoots.1 = [OutLine.noRoots] ∧ witRunNoRoots.2.1 = witFs) :=
  C8_exit_codes [] witFs witMt false witRunNoRoots rfl

theorem C9_mode_independent_records_witness :
    witStP.specs = witStA.specs ∧ witStP.count = witStA.count ∧
    witStP.trace = witStA.trace :=
  C9_mode_independent_records witFs witFs witSpecs ossTag witStP witStA rfl rfl

theorem C10_undecodable_behavior_witness :
    ((replaceInTextFiles c10Fs ("SPEC-001-beta.md".toList)
        ("SPEC-002-beta.md".toList) true).2 =
        c10Fs.map (fun e => (ritfEntry ("SPEC-001-beta.md".toList)
          ("SPEC-002-beta.md".toList) true e).2) ∧
      (∀ e ∈ c10Fs, e.content = none →
        (ritfEntry ("SPEC-001-beta.md".toList)
          ("SPEC-002-beta.md".toList) true e).2 = e)) ∧
    resolveGroupStep ossTag [0, 1] 3 true c10St c10G = .error () ∧
    resolveGroups ossTag [0, 1] 3 true (c10G :: []) c10St = .error () :=
  C10_undecodable_behavior c10Fs ("SPEC-001-beta.md".toList)
    ("SPEC-002-beta.md".toList) true ossTag [0, 1] 3 c10St c10G [] c10File
    (by decide) (by decide) rfl
